import Mathlib

/-
Shallow embedding of the mark-and-sweep smart-pointer collector
(sources: gcptr.h and trunk/gcptr.cc).

Blocks (struct mblock) and handles (class basic_ptr) are identified by
natural-number ids; the global state carries association lists for both,
together with the global and thread-local lists of the source (roots,
active_blocks, constr_stack, new_blocks) and the collection counters.
Raw pointer values are modelled as integers, with 0 playing the role of
the null pointer.  The recursive mark phase is embedded with an explicit
fuel argument; every theorem about it is stated with enough fuel
(the number of unmarked blocks), which is exactly what the call in gc
supplies, and the proofs show the fuel never runs out at that bound.
-/

namespace GcPtr

abbrev BId := Nat
abbrev HId := Nat

/-- Tracked pointer state: the two fields of class basic_ptr that the
collector reads, the attached block (field mem, null when detached) and
the raw pointer value (field pval, 0 meaning null). -/
structure Handle where
  mem : Option BId
  pval : Int
deriving DecidableEq

/-- Memory-block header, struct mblock.  The destructor callback is
modelled by the flag hasDestr (whether the destroy pointer is non-null);
running the callback on n elements performs n element destructor calls.
The payload start address (obj()) is objAddr. -/
structure Block where
  hasDestr : Bool
  members : List HId
  nelems : Nat
  objsize : Nat
  objAddr : Int
  active : Bool
  marked : Bool
deriving DecidableEq

abbrev BMap := List (BId × Block)
abbrev HMap := List (HId × Handle)

/-- Lookup in an association list keyed by ids (first match wins). -/
def lookupA {α : Type} : List (Nat × α) → Nat → Option α
  | [], _ => none
  | p :: rest, i => if p.1 = i then some p.2 else lookupA rest i

/-- Update the entry stored under a given id, leaving other entries alone. -/
def updateA {α : Type} (l : List (Nat × α)) (i : Nat) (f : α → α) : List (Nat × α) :=
  l.map (fun p => if p.1 = i then (p.1, f p.2) else p)

/-- Set the marked bit of block i (the write mb->marked = true). -/
def setMarkedB (bs : BMap) (i : BId) : BMap :=
  updateA bs i (fun mb => { mb with marked := true })

/-- Clear the marked bit of block i (the write active_blocks->marked = false). -/
def clearMarkedB (bs : BMap) (i : BId) : BMap :=
  updateA bs i (fun mb => { mb with marked := false })

/-- Set the active bit of block i (the write new_blocks->active = true). -/
def setActiveB (bs : BMap) (i : BId) : BMap :=
  updateA bs i (fun mb => { mb with active := true })

/-- Release block i back to the untyped heap (the delete[] of its bytes). -/
def removeB (bs : BMap) (i : BId) : BMap :=
  bs.filter (fun p => p.1 ≠ i)

/-- Number of blocks whose marked bit is clear; used as mark-phase fuel. -/
def unmarkedCount (bs : BMap) : Nat :=
  (bs.filter (fun p => !p.2.marked)).length

/-- Marked bit of block i, false when i is not a block. -/
def isMarked (bs : BMap) (i : BId) : Bool :=
  match lookupA bs i with
  | some mb => mb.marked
  | none => false

/-- Active bit of block i, false when i is not a block. -/
def activeAt (bs : BMap) (i : BId) : Bool :=
  match lookupA bs i with
  | some mb => mb.active
  | none => false

/-- One level of the mark phase, basic_ptr::mark: walk a list of handles;
for a handle attached to an active unmarked block, set the mark bit and
hand the block's members list to rec, the treatment of the nested
recursion.  The walk itself is the source's for loop over the list. -/
def markGo (hs : HMap) (rec : BMap → List HId → BMap) : BMap → List HId → BMap
  | bs, [] => bs
  | bs, h :: rest =>
    match lookupA hs h with
    | none => markGo hs rec bs rest
    | some hd =>
      match hd.mem with
      | none => markGo hs rec bs rest
      | some i =>
        match lookupA bs i with
        | none => markGo hs rec bs rest
        | some mb =>
          if mb.active && !mb.marked then
            markGo hs rec (rec (setMarkedB bs i) mb.members) rest
          else markGo hs rec bs rest

/-- Mark phase with explicit recursion fuel: at fuel f + 1 the nested
call into a freshly marked block's members runs with fuel f; at fuel 0
it would mark but not traverse.  One unit of fuel is spent exactly when
a block is freshly marked, so fuel equal to the number of unmarked
blocks — which is what gc supplies — never runs out. -/
def markL (hs : HMap) : Nat → BMap → List HId → BMap
  | 0 => markGo hs (fun bs _ => bs)
  | f + 1 => markGo hs (markL hs f)

/-- Sweep loop of basic_ptr::gc: pop each block off the active list;
a marked block has its mark cleared and is pushed on the retained list,
an unmarked block is pushed on the garbage list. -/
def sweepAux : BMap → List BId → List BId → List BId → BMap × List BId × List BId
  | bs, [], act, gar => (bs, act, gar)
  | bs, i :: rest, act, gar =>
    match lookupA bs i with
    | none => sweepAux bs rest act gar
    | some mb =>
      if mb.marked then sweepAux (clearMarkedB bs i) rest (i :: act) gar
      else sweepAux bs rest act (i :: gar)

/-- Reclaim loop of basic_ptr::gc: for each garbage block accumulate its
objsize into freed, run the header destructor (the destroy callback makes
nelems element-destructor calls when present) and release the bytes. -/
def reclaim : BMap → List BId → Nat → Nat → Nat × BMap × Nat
  | bs, [], freed, d => (freed, bs, d)
  | bs, i :: rest, freed, d =>
    match lookupA bs i with
    | none => reclaim bs rest freed d
    | some mb =>
      reclaim (removeB bs i) rest (freed + mb.objsize)
        (d + if mb.hasDestr then mb.nelems else 0)

/-- Global state: handle and block stores, the global roots and
active-blocks lists, the (single modelled mutator thread's) construction
stack and new-blocks list, the allocation counter and threshold, the gc
busy flag, fresh-id and fresh-address counters, and the running count of
element destructor invocations (observable effect of destroy callbacks). -/
structure State where
  handles : HMap
  blocks : BMap
  roots : List HId
  active_blocks : List BId
  constr_stack : List BId
  new_blocks : List BId
  allocated : Nat
  threshold : Nat
  busy : Bool
  nextB : BId
  nextAddr : Int
  dtorCalls : Nat
deriving DecidableEq

/-- Mark phase as invoked from gc: mark(roots) with sufficient fuel. -/
def markPhase (s : State) : BMap :=
  markL s.handles (unmarkedCount s.blocks) s.blocks s.roots

/-- Collector, basic_ptr::gc(bool unconditional): return 0 when busy or
when a conditional collection is below threshold; otherwise reset the
counter, mark from the roots, sweep the active list into retained and
garbage, reclaim the garbage and return the freed byte count. -/
def gc (unconditional : Bool) (s : State) : Nat × State :=
  if s.busy = true ∨ (unconditional = false ∧ s.allocated < s.threshold) then (0, s)
  else
    let sw := sweepAux (markPhase s) s.active_blocks [] []
    let rc := reclaim sw.1 sw.2.2 0 s.dtorCalls
    (rc.1, { s with blocks := rc.2.1, active_blocks := sw.2.1,
                    allocated := 0, dtorCalls := rc.2.2 })

/-- Public entry gcptr::collect(): unconditional collection. -/
def collect (s : State) : Nat × State := gc true s

/-- Public entry gcptr::collect_threshold(newthr): read the threshold,
overwrite it when the argument is nonzero, return the previous value. -/
def collect_threshold (s : State) (newthr : Nat) : Nat × State :=
  (s.threshold, if newthr ≠ 0 then { s with threshold := newthr } else s)

/-- Update the handle stored under id h. -/
def updateH (hs : HMap) (h : HId) (f : Handle → Handle) : HMap :=
  updateA hs h f

/-- Failure kinds of the dereference precondition check, as named in the
specification's error taxonomy (the source throws ptr_exception with the
messages for a null and an out-of-bounds pointer respectively). -/
inductive DerefErr
  | BadDeref
  | OutOfBounds
deriving DecidableEq

instance : DecidableEq (Except DerefErr Unit)
  | .ok (), .ok () => isTrue rfl
  | .ok (), .error _ => isFalse (fun hc => nomatch hc)
  | .error _, .ok () => isFalse (fun hc => nomatch hc)
  | .error e, .error e' =>
    if h : e = e' then isTrue (by rw [h]) else isFalse (fun hc => h (by injection hc))

/-- Payload membership test mblock::contains: obj() <= addr < obj() + objsize. -/
def blockContains (mb : Block) (addr : Int) : Prop :=
  mb.objAddr ≤ addr ∧ addr < mb.objAddr + mb.objsize

instance (mb : Block) (addr : Int) : Decidable (blockContains mb addr) :=
  inferInstanceAs (Decidable (_ ∧ _))

/-- Dereference precondition, basic_ptr::check: fail on a null pointer
value, then fail when the handle is attached and its value lies outside
its block's payload.  A detached handle with a non-null value passes.
An attached handle whose block is no longer in the store would be a
dangling read in the source (it cannot arise for live handles); it is
modelled as passing. -/
def check (bs : BMap) (h : Handle) : Except DerefErr Unit :=
  if h.pval = 0 then .error .BadDeref
  else
    match h.mem with
    | none => .ok ()
    | some i =>
      match lookupA bs i with
      | none => .ok ()
      | some mb =>
        if blockContains mb h.pval then .ok () else .error .OutOfBounds

/-- Precondition check performed by ptr::operator* . -/
def derefCheck (bs : BMap) (h : Handle) : Except DerefErr Unit := check bs h

/-- Precondition check performed by ptr::operator-> . -/
def arrowCheck (bs : BMap) (h : Handle) : Except DerefErr Unit := check bs h

/-- Precondition check performed by ptr::operator[](n): the source calls
check() on the handle itself, so the index n takes no part in the check. -/
def subscriptCheck (bs : BMap) (h : Handle) (n : Int) : Except DerefErr Unit :=
  check bs h

/-- Constructor basic_ptr(const basic_ptr &src, void *p): inherit the
source's attachment, take the given interior pointer value. -/
def interiorH (src : Handle) (p : Int) : Handle :=
  { mem := src.mem, pval := p }

/-- Constructor basic_ptr(void *src): a detached handle holding a raw address. -/
def fromRawH (v : Int) : Handle :=
  { mem := none, pval := v }

/-- Typed pointer addition ptr::operator+(n) on an element type of size
elemSize: a new handle at cref() + n sharing the source's attachment. -/
def plusH (src : Handle) (n : Int) (elemSize : Nat) : Handle :=
  interiorH src (src.pval + n * elemSize)

/-- Typed pointer subtraction ptr::operator-(n). -/
def minusH (src : Handle) (n : Int) (elemSize : Nat) : Handle :=
  interiorH src (src.pval - n * elemSize)

/-- Compound assignment ptr::operator+=(n): advance the pointer value in place. -/
def addAssignH (h : Handle) (n : Int) (elemSize : Nat) : Handle :=
  { h with pval := h.pval + n * elemSize }

/-- Compound assignment ptr::operator-=(n). -/
def subAssignH (h : Handle) (n : Int) (elemSize : Nat) : Handle :=
  { h with pval := h.pval - n * elemSize }

/-- Pre-increment ptr::operator++ . -/
def incH (h : Handle) (elemSize : Nat) : Handle :=
  { h with pval := h.pval + elemSize }

/-- Pre-decrement ptr::operator-- . -/
def decH (h : Handle) (elemSize : Nat) : Handle :=
  { h with pval := h.pval - elemSize }

/-- Copy assignment basic_ptr::operator=(const basic_ptr &): overwrite the
target handle's mem and pval from the source handle; no relinking happens,
so the roots list and every members list are untouched. -/
def assignHandle (s : State) (q p : HId) : State :=
  match lookupA s.handles p with
  | none => s
  | some pd =>
    let hs := updateH s.handles q (fun qd => { qd with mem := pd.mem, pval := pd.pval })
    { s with handles := hs }

/-- Raw-pointer assignment basic_ptr::operator=(void *src): overwrite only
the pointer value; the attachment and all registry lists are untouched. -/
def assignRaw (s : State) (h : HId) (v : Int) : State :=
  { s with handles := updateH s.handles h (fun hd => { hd with pval := v }) }

/-- Zero-argument basic_ptr::attach(): set mem to the top of the current
thread's construction stack (null when the stack is empty) and report
whether a block was adopted. -/
def attachTop (s : State) (h : HId) : Bool × State :=
  let hs := updateH s.handles h (fun hd => { hd with mem := s.constr_stack.head? })
  (s.constr_stack.head?.isSome, { s with handles := hs })

/-- Size in bytes of the mblock header (mblock::size()); the concrete
value is platform alignment padding and is observable to no claim, it
only spaces out the modelled payload addresses. -/
def headerSize : Nat := 64

/-- Allocation begin, basic_ptr::alloc_begin(nelems, elem_size, destr, zero):
run a conditional collection, then request header + nelems * elem_size raw
bytes from the untyped heap (its verdict is the oracle heapOK).  On refusal
mem becomes null and the failure propagates (flag false).  On success the
header is initialised (members empty, active and marked false), the block
is pushed on the construction stack, and the handle is attached with its
value at the payload base.  Payload bytes themselves are not modelled, so
the zero flag (memset) has no observable effect here. -/
def alloc_begin (s : State) (h : HId) (nelems elemSize : Nat) (hasDestr : Bool)
    (zero : Bool) (heapOK : Bool) : Bool × State :=
  let s0 := (gc false s).2
  let objsize := nelems * elemSize
  if heapOK = false then
    (false, { s0 with handles := updateH s0.handles h (fun hd => { hd with mem := none }) })
  else
    (true, { s0 with
      blocks := (s0.nextB,
        { hasDestr := hasDestr, members := [], nelems := nelems, objsize := objsize,
          objAddr := s0.nextAddr, active := false, marked := false }) :: s0.blocks,
      constr_stack := s0.nextB :: s0.constr_stack,
      handles := updateH s0.handles h
        (fun hd => { hd with mem := some s0.nextB, pval := s0.nextAddr }),
      nextB := s0.nextB + 1,
      nextAddr := s0.nextAddr + (headerSize + objsize) })

/-- Flush loop at the end of basic_ptr::alloc_end: move every block of the
thread's new-blocks list to the global active list, setting its active bit. -/
def flushNew : List BId → BMap → List BId → BMap × List BId
  | [], bs, act => (bs, act)
  | i :: rest, bs, act => flushNew rest (setActiveB bs i) (i :: act)

/-- Allocation end, basic_ptr::alloc_end(nconstructed).  The source pops
the construction stack unconditionally; popping an empty stack dereferences
a null pointer, modelled as the undefined outcome none.  If the handle's
mem is null (raw allocation failed) it returns at once — after that pop.
If fewer elements were constructed than requested, the header's element
count is overwritten, the header destructor runs (nconstructed element
destructor calls when a callback is present), the bytes are released and
mem reverts to null; the pointer value is not touched.  Otherwise the
block's objsize is added to the allocation counter and the block joins the
new-blocks list.  When the construction stack has become empty, the
new-blocks list is flushed to the global active list. -/
def alloc_end (s : State) (h : HId) (nconstructed : Nat) : Option State :=
  match s.constr_stack with
  | [] => none
  | _ :: stack1 =>
    let s1 := { s with constr_stack := stack1 }
    match lookupA s1.handles h with
    | none => none
    | some hd =>
      match hd.mem with
      | none => some s1
      | some i =>
        match lookupA s1.blocks i with
        | none => none
        | some mb =>
          let s2 :=
            if nconstructed < mb.nelems then
              { s1 with blocks := removeB s1.blocks i,
                        dtorCalls := s1.dtorCalls +
                          (if mb.hasDestr then nconstructed else 0),
                        handles := updateH s1.handles h
                          (fun hd0 => { hd0 with mem := none }) }
            else
              { s1 with allocated := s1.allocated + mb.objsize,
                        new_blocks := i :: s1.new_blocks }
          if s2.constr_stack = [] then
            let fl := flushNew s2.new_blocks s2.blocks s2.active_blocks
            some { s2 with new_blocks := [], blocks := fl.1, active_blocks := fl.2 }
          else some s2

/-- Failures that can propagate out of an allocation operation. -/
inductive Exn
  | heapFail
  | ctorFail
deriving DecidableEq

/-- Outcome of a modelled allocation operation: normal return, an
exception propagating to the caller, or undefined behaviour of the source. -/
inductive AllocResult
  | ok (s : State)
  | raised (e : Exn) (s : State)
  | undefinedBehavior
deriving DecidableEq

/-- Resulting state of an allocation outcome, when it is defined. -/
def AllocResult.stateOf : AllocResult → Option State
  | .ok s => some s
  | .raised _ s => some s
  | .undefinedBehavior => none

/-- Number of elements constructed before the element-constructor loop of
ptr::alloc_array stops early: with failAt = some k and k < nelems the
constructor of element k throws after elements 0..k-1 were built. -/
def ctorStops (failAt : Option Nat) (nelems : Nat) : Option Nat :=
  match failAt with
  | some k => if k < nelems then some k else none
  | none => none

/-- Typed allocation ptr::alloc_array(nelems, ...): alloc_begin, then the
placement-construction loop (element constructors are modelled as pure,
except that the one at index failAt may throw), then alloc_end with the
number of constructed elements — reached normally on success and from the
catch-and-rethrow block on failure, exactly as in the source. -/
def alloc_array (s : State) (h : HId) (nelems elemSize : Nat) (hasDestr zero : Bool)
    (heapOK : Bool) (failAt : Option Nat) : AllocResult :=
  match alloc_begin s h nelems elemSize hasDestr zero heapOK with
  | (false, s1) =>
    match alloc_end s1 h 0 with
    | some s2 => .raised .heapFail s2
    | none => .undefinedBehavior
  | (true, s1) =>
    match ctorStops failAt nelems with
    | some k =>
      match alloc_end s1 h k with
      | some s2 => .raised .ctorFail s2
      | none => .undefinedBehavior
    | none =>
      match alloc_end s1 h nelems with
      | some s2 => .ok s2
      | none => .undefinedBehavior

/-- Single-object allocation ptr::alloc(...): the one-element instance of
the same begin/construct/end protocol (a failing constructor is failAt 0). -/
def alloc (s : State) (h : HId) (elemSize : Nat) (hasDestr zero : Bool)
    (heapOK : Bool) (ctorFails : Bool) : AllocResult :=
  alloc_array s h 1 elemSize hasDestr zero heapOK (if ctorFails then some 0 else none)

/-- Exception of an allocation outcome, when one propagates. -/
def AllocResult.exnOf : AllocResult → Option Exn
  | .ok _ => none
  | .raised e _ => some e
  | .undefinedBehavior => none

/-- Concrete state for exercising C7. -/
def stC7 : State :=
  { handles := [(1, ⟨some 3, 11⟩), (2, ⟨none, 0⟩)], blocks := [], roots := [1, 2],
    active_blocks := [], constr_stack := [], new_blocks := [], allocated := 0,
    threshold := 100, busy := false, nextB := 0, nextAddr := 1, dtorCalls := 0 }

/-- Concrete state for exercising C9: handle 3 starts attached to block 5. -/
def stC9 : State :=
  { handles := [(3, ⟨some 5, 7⟩)], blocks := [], roots := [3], active_blocks := [],
    constr_stack := [], new_blocks := [], allocated := 0, threshold := 100,
    busy := false, nextB := 0, nextAddr := 1, dtorCalls := 0 }

/-- Concrete state for exercising C10. -/
def stC10 : State :=
  { handles := [(4, ⟨some 9, 17⟩)], blocks := [], roots := [4], active_blocks := [],
    constr_stack := [], new_blocks := [], allocated := 0, threshold := 100,
    busy := false, nextB := 0, nextAddr := 1, dtorCalls := 0 }

/-- Fresh initial state from which the C2 scenario allocation is run. -/
def stC2 : State :=
  { handles := [(0, ⟨none, 0⟩)], blocks := [], roots := [0], active_blocks := [],
    constr_stack := [], new_blocks := [], allocated := 0, threshold := 102400,
    busy := false, nextB := 0, nextAddr := 1000, dtorCalls := 0 }

/-- State reached by p.alloc_array(4) of 4-byte elements on stC2. -/
def stC2after : State :=
  match alloc_array stC2 0 4 4 false false true none with
  | .ok s => s
  | _ => stC2

/-- The handle p after the C2 scenario allocation (target at payload base). -/
def pC2 : Handle :=
  (lookupA stC2after.handles 0).getD ⟨none, 0⟩

/-- Block header produced by the C2 scenario allocation. -/
def mbC2 : Block :=
  ⟨false, [], 4, 16, 1000, true, false⟩

/-- Fresh initial state from which the C3 and C4 scenarios are run. -/
def stC3 : State :=
  { handles := [(0, ⟨none, 0⟩)], blocks := [], roots := [0], active_blocks := [],
    constr_stack := [], new_blocks := [], allocated := 0, threshold := 102400,
    busy := false, nextB := 0, nextAddr := 1000, dtorCalls := 0 }

/-- Nested-construction state for the C4 scenario: block 9 is currently
under construction, so the construction stack holds [9]. -/
def stC4b : State :=
  { handles := [(0, ⟨none, 0⟩)], blocks := [(9, ⟨false, [], 1, 4, 500, false, false⟩)],
    roots := [0], active_blocks := [], constr_stack := [9], new_blocks := [],
    allocated := 0, threshold := 102400, busy := false, nextB := 10,
    nextAddr := 1000, dtorCalls := 0 }

/-- Concrete state for exercising C8. -/
def stC8 : State :=
  { handles := [], blocks := [], roots := [], active_blocks := [],
    constr_stack := [], new_blocks := [], allocated := 5, threshold := 100,
    busy := false, nextB := 0, nextAddr := 1, dtorCalls := 0 }

/-- Relation between block stores before and after marking steps. -/
def MarksExtend (bs bs' : BMap) : Prop :=
  ∀ i, lookupA bs' i = lookupA bs i
    ∨ ∃ mb, lookupA bs i = some mb ∧ mb.active = true
        ∧ lookupA bs' i = some { mb with marked := true }

/-- Reachability from a list of handles through attachment and member
edges, restricted (as basic_ptr::mark is) to active blocks. -/
inductive ReachFrom (hs : HMap) (bs : BMap) (l : List HId) : BId → Prop
  | base (h : HId) (hd : Handle) (i : BId) (mb : Block) :
      h ∈ l → lookupA hs h = some hd → hd.mem = some i →
      lookupA bs i = some mb → mb.active = true → ReachFrom hs bs l i
  | step (i : BId) (mb : Block) (h : HId) (hd : Handle) (j : BId) (mbj : Block) :
      ReachFrom hs bs l i → lookupA bs i = some mb → h ∈ mb.members →
      lookupA hs h = some hd → hd.mem = some j →
      lookupA bs j = some mbj → mbj.active = true → ReachFrom hs bs l j

/-- Iterated keyed update of a block store. -/
def foldUpd (f : Block → Block) (bs : BMap) : List BId → BMap
  | [] => bs
  | i :: rest => foldUpd f (updateA bs i f) rest

/-- Sum of the objsize fields of the listed blocks. -/
def sumObjsize (bs : BMap) (l : List BId) : Nat :=
  (l.map (fun i => match lookupA bs i with | some mb => mb.objsize | none => 0)).sum

/-- Objsize of block i in a store, 0 when absent. -/
def objsizeAt (bs : BMap) (i : BId) : Nat :=
  match lookupA bs i with
  | some mb => mb.objsize
  | none => 0

/-- Keys of a block store. -/
def keysB (bs : BMap) : List BId := bs.map Prod.fst

/-- Well-formed quiescent state: the collector is not running, block keys
and the active list have no duplicates, the active list holds exactly the
blocks whose active flag is set, and no mark bit is set (invariant I3
outside a mark phase). -/
def WF (s : State) : Prop :=
  s.busy = false
  ∧ (keysB s.blocks).Nodup
  ∧ s.active_blocks.Nodup
  ∧ (∀ i ∈ s.active_blocks, activeAt s.blocks i = true)
  ∧ (∀ p ∈ s.blocks, (Prod.snd p).active = true → Prod.fst p ∈ s.active_blocks)
  ∧ (∀ p ∈ s.blocks, (Prod.snd p).marked = false)

instance (s : State) : Decidable (WF s) := by
  unfold WF
  infer_instance

/-- A block reachable from the root handles. -/
def Reach (s : State) (i : BId) : Prop :=
  ReachFrom s.handles s.blocks s.roots i

/-- Blocks of the active list that the mark phase marked (those retained). -/
def markedFilter (s : State) : List BId :=
  s.active_blocks.filter (fun i => isMarked (markPhase s) i)

/-- Blocks of the active list that the mark phase left unmarked (garbage). -/
def garbageFilter (s : State) : List BId :=
  s.active_blocks.filter (fun i => !isMarked (markPhase s) i)

/-- Concrete state for C1: a three-block cycle (1 to 2 to 3 to 1 through
member handles) no longer referenced by any root, plus block 4 held by
the root handle 20. -/
def stC1 : State :=
  { handles := [(10, ⟨some 2, 0⟩), (11, ⟨some 3, 0⟩), (12, ⟨some 1, 0⟩), (20, ⟨some 4, 0⟩)],
    blocks := [(1, ⟨false, [10], 1, 10, 100, true, false⟩),
               (2, ⟨false, [11], 1, 20, 200, true, false⟩),
               (3, ⟨false, [12], 1, 40, 300, true, false⟩),
               (4, ⟨false, [], 1, 80, 400, true, false⟩)],
    roots := [20], active_blocks := [1, 2, 3, 4],
    constr_stack := [], new_blocks := [], allocated := 0, threshold := 102400,
    busy := false, nextB := 5, nextAddr := 1000, dtorCalls := 0 }

/-- Concrete state for C6: same shape as the C1 scenario. -/
def stC6 : State :=
  { handles := [(10, ⟨some 2, 0⟩), (11, ⟨some 3, 0⟩), (12, ⟨some 1, 0⟩), (20, ⟨some 4, 0⟩)],
    blocks := [(1, ⟨false, [10], 1, 10, 100, true, false⟩),
               (2, ⟨false, [11], 1, 20, 200, true, false⟩),
               (3, ⟨false, [12], 1, 40, 300, true, false⟩),
               (4, ⟨false, [], 1, 80, 400, true, false⟩)],
    roots := [20], active_blocks := [1, 2, 3, 4],
    constr_stack := [], new_blocks := [], allocated := 0, threshold := 102400,
    busy := false, nextB := 5, nextAddr := 1000, dtorCalls := 0 }

/-- Concrete state for the C5 collection part: block 7 is still under
construction (inactive, on the construction stack). -/
def stC5a : State :=
  { handles := [(0, ⟨some 7, 900⟩)], blocks := [(7, ⟨false, [], 2, 8, 900, false, false⟩)],
    roots := [0], active_blocks := [], constr_stack := [7], new_blocks := [],
    allocated := 0, threshold := 102400, busy := false, nextB := 8,
    nextAddr := 1000, dtorCalls := 0 }

/-- Block header of the under-construction block in stC5a. -/
def mbC5a : Block := ⟨false, [], 2, 8, 900, false, false⟩

/-- Concrete state for the C5 flush part: block 5 finishing construction
at the bottom of the stack. -/
def stC5b : State :=
  { handles := [(0, ⟨some 5, 40⟩)], blocks := [(5, ⟨false, [], 1, 4, 40, false, false⟩)],
    roots := [0], active_blocks := [], constr_stack := [5], new_blocks := [],
    allocated := 0, threshold := 102400, busy := false, nextB := 6,
    nextAddr := 1000, dtorCalls := 0 }

/-- Block header of the committing block in stC5b. -/
def mbC5b : Block := ⟨false, [], 1, 4, 40, false, false⟩

/-- Lookup after a keyed update: the entry under the updated id is mapped,
all other entries are untouched. -/
theorem lookupA_updateA {α : Type} (l : List (Nat × α)) (i : Nat) (f : α → α) (j : Nat) :
    lookupA (updateA l i f) j = if j = i then (lookupA l j).map f else lookupA l j := by
  induction l with
  | nil => simp [lookupA, updateA]
  | cons p rest ih =>
    by_cases h2 : p.1 = j
    · by_cases h1 : p.1 = i
      · have hji : j = i := h2.symm.trans h1
        simp [lookupA, updateA, h1, h2, hji]
      · have hji : ¬ j = i := fun h => h1 (h2.trans h)
        simp [lookupA, updateA, h1, h2, hji]
    · by_cases h1 : p.1 = i
      · have hij : ¬ i = j := fun h => h2 (h1.trans h)
        have hji : ¬ j = i := fun h => hij h.symm
        simp only [updateA] at ih ⊢
        simp [lookupA, h1, h2, hij, hji, ih]
      · simp only [updateA] at ih ⊢
        simp [lookupA, h1, h2, ih]

/-- Lookup after releasing a block: the removed id maps to nothing, other
entries are untouched. -/
theorem lookupA_removeB (bs : BMap) (i j : BId) :
    lookupA (removeB bs i) j = if j = i then none else lookupA bs j := by
  induction bs with
  | nil => simp [lookupA, removeB]
  | cons p rest ih =>
    rcases eq_or_ne p.1 i with h1 | h1 <;> rcases eq_or_ne p.1 j with h2 | h2 <;>
      simp_all [lookupA, removeB, List.filter]

/-- A successful lookup comes from an entry of the list. -/
theorem lookupA_mem {α : Type} (l : List (Nat × α)) (i : Nat) (b : α)
    (hlk : lookupA l i = some b) : (i, b) ∈ l := by
  induction l with
  | nil => simp [lookupA] at hlk
  | cons p rest ih =>
    obtain ⟨a, c⟩ := p
    by_cases h1 : a = i
    · simp only [lookupA, h1, if_pos] at hlk
      injection hlk with hb
      subst h1; subst hb
      exact List.mem_cons_self _ _
    · simp only [lookupA, h1, if_neg, if_false] at hlk
      exact List.mem_cons_of_mem _ (ih hlk)

/-- An id that appears as a key is found by lookup. -/
theorem mem_lookupA_isSome {α : Type} (l : List (Nat × α)) (i : Nat) (b : α)
    (hmem : (i, b) ∈ l) : (lookupA l i).isSome = true := by
  induction l with
  | nil => simp at hmem
  | cons p rest ih =>
    rcases List.mem_cons.1 hmem with h | h
    · simp [lookupA, ← h]
    · by_cases h1 : p.1 = i <;> simp [lookupA, h1, ih h]

/-- Removing an id that is not present leaves the store unchanged. -/
theorem removeB_of_lookupA_none (bs : BMap) (i : BId)
    (hlk : lookupA bs i = none) : removeB bs i = bs := by
  induction bs with
  | nil => rfl
  | cons p rest ih =>
    by_cases h1 : p.1 = i
    · simp [lookupA, h1] at hlk
    · simp only [lookupA, h1, if_neg, if_false] at hlk
      have hstep : removeB (p :: rest) i = p :: removeB rest i := by
        simp [removeB, List.filter_cons, h1]
      rw [hstep, ih hlk]

/-- A conditional collection below the threshold returns at once. -/
theorem gc_false_noop (s : State) (hbusy : s.busy = false)
    (hthr : s.allocated < s.threshold) : gc false s = (0, s) := by
  simp [gc, hbusy, hthr]

/-- C7: copy assignment overwrites the target handle's attachment and
pointer value from the source while leaving the roots list, every block
(hence every members list) and every other handle untouched, and the
typed arithmetic operators all yield or leave a handle attached to the
same block as their operand. -/
theorem claim_C7_copy_and_arith_preserve_attachment :
    (∀ (s : State) (q p : HId) (pd qd : Handle),
      lookupA s.handles p = some pd → lookupA s.handles q = some qd →
        lookupA (assignHandle s q p).handles q = some { qd with mem := pd.mem, pval := pd.pval }
        ∧ (assignHandle s q p).roots = s.roots
        ∧ (assignHandle s q p).blocks = s.blocks
        ∧ ∀ r, r ≠ q → lookupA (assignHandle s q p).handles r = lookupA s.handles r)
  ∧ (∀ (hd : Handle) (n : Int) (elemSize : Nat),
      (plusH hd n elemSize).mem = hd.mem ∧ (minusH hd n elemSize).mem = hd.mem
      ∧ (incH hd elemSize).mem = hd.mem ∧ (decH hd elemSize).mem = hd.mem
      ∧ (addAssignH hd n elemSize).mem = hd.mem
      ∧ (subAssignH hd n elemSize).mem = hd.mem) := by
  constructor
  · intro s q p pd qd hp hq
    refine ⟨?_, ?_, ?_, ?_⟩
    · simp [assignHandle, hp, updateH, lookupA_updateA, hq]
    · simp [assignHandle, hp]
    · simp [assignHandle, hp]
    · intro r hr
      simp [assignHandle, hp, updateH, lookupA_updateA, hr]
  · intro hd n elemSize
    exact ⟨rfl, rfl, rfl, rfl, rfl, rfl⟩

/-- Witness for C7 at a concrete two-handle state. -/
theorem claim_C7_witness :
    lookupA stC7.handles 1 = some ⟨some 3, 11⟩
    ∧ lookupA stC7.handles 2 = some ⟨none, 0⟩
    ∧ lookupA (assignHandle stC7 2 1).handles 2 = some ⟨some 3, 11⟩
    ∧ (assignHandle stC7 2 1).roots = stC7.roots
    ∧ (plusH ⟨some 3, 11⟩ 5 4).mem = some 3 := by
  have h := claim_C7_copy_and_arith_preserve_attachment.1 stC7 2 1 ⟨some 3, 11⟩ ⟨none, 0⟩
    (by decide) (by decide)
  exact ⟨by decide, by decide, h.1, h.2.1,
    (claim_C7_copy_and_arith_preserve_attachment.2 ⟨some 3, 11⟩ 5 4).1⟩

/-- C9: on a thread whose construction stack is empty, the zero-argument
attach() overwrites the handle's block with null — even when the handle
was attached before — and reports false. -/
theorem claim_C9_attach_on_empty_stack (s : State) (h : HId) (hd : Handle)
    (hstack : s.constr_stack = []) (hh : lookupA s.handles h = some hd) :
    (attachTop s h).1 = false
    ∧ lookupA (attachTop s h).2.handles h = some { hd with mem := none } := by
  constructor
  · simp [attachTop, hstack]
  · simp [attachTop, hstack, updateH, lookupA_updateA, hh]

/-- Witness for C9: a previously attached handle ends up detached. -/
theorem claim_C9_witness :
    stC9.constr_stack = [] ∧ lookupA stC9.handles 3 = some ⟨some 5, 7⟩
    ∧ (attachTop stC9 3).1 = false
    ∧ lookupA (attachTop stC9 3).2.handles 3 = some ⟨none, 7⟩ := by
  have h := claim_C9_attach_on_empty_stack stC9 3 ⟨some 5, 7⟩ (by decide) (by decide)
  exact ⟨by decide, by decide, h.1, h.2⟩

/-- C10: raw-pointer assignment overwrites only the handle's pointer
value, keeping its attachment, every other handle, the roots list and all
blocks (hence population membership) unchanged; by contrast, construction
from a raw address yields a detached handle. -/
theorem claim_C10_raw_assignment_frame (s : State) (h : HId) (v : Int) (hd : Handle)
    (hh : lookupA s.handles h = some hd) :
    lookupA (assignRaw s h v).handles h = some { hd with pval := v }
    ∧ ({ hd with pval := v } : Handle).mem = hd.mem
    ∧ (∀ r, r ≠ h → lookupA (assignRaw s h v).handles r = lookupA s.handles r)
    ∧ (assignRaw s h v).roots = s.roots
    ∧ (assignRaw s h v).blocks = s.blocks
    ∧ (fromRawH v).mem = none := by
  refine ⟨?_, rfl, ?_, rfl, rfl, rfl⟩
  · simp [assignRaw, updateH, lookupA_updateA, hh]
  · intro r hr
    simp [assignRaw, updateH, lookupA_updateA, hr]

/-- Witness for C10 at a concrete attached handle. -/
theorem claim_C10_witness :
    lookupA stC10.handles 4 = some ⟨some 9, 17⟩
    ∧ lookupA (assignRaw stC10 4 23).handles 4 = some ⟨some 9, 23⟩
    ∧ (assignRaw stC10 4 23).roots = stC10.roots
    ∧ (fromRawH 23).mem = none := by
  have h := claim_C10_raw_assignment_frame stC10 4 23 ⟨some 9, 17⟩ (by decide)
  exact ⟨by decide, h.1, h.2.2.2.1, h.2.2.2.2.2⟩

/-- C8: a conditional collection below the threshold frees nothing and
returns 0 leaving the state untouched; an unconditional collection is
insensitive to the allocation counter; collect_threshold 0 reads the
threshold without changing it, and a nonzero argument installs the new
threshold and returns the previous one. -/
theorem claim_C8_threshold_policy :
    (∀ s : State, s.busy = false → s.allocated < s.threshold → gc false s = (0, s))
    ∧ (∀ (s : State) (a : Nat), s.busy = false →
        gc true { s with allocated := a } = gc true s)
    ∧ (∀ s : State, collect_threshold s 0 = (s.threshold, s))
    ∧ (∀ (s : State) (t : Nat), t ≠ 0 →
        collect_threshold s t = (s.threshold, { s with threshold := t })) := by
  refine ⟨gc_false_noop, ?_, ?_, ?_⟩
  · intro s a hbusy
    simp [gc, hbusy, markPhase]
  · intro s
    simp [collect_threshold]
  · intro s t ht
    simp [collect_threshold, ht]

/-- C2 (amended): the precondition check of *, -> and [i] fails with
BadDeref exactly when the handle's pointer value is null and with
OutOfBounds exactly when the (non-null) handle is attached and its own
pointer value lies outside the attached block's payload; a detached
non-null handle passes.  The subscript operator checks only the handle's
own target — the index does not participate — so after an alloc_array(4)
whose target sits at the payload base, *(p + 4) fails with OutOfBounds,
*(p + 3) succeeds, and p[4] passes the precondition check. -/
theorem claim_C2_deref_precondition (bs : BMap) (h : Handle) (i : BId) (mb : Block)
    (hmem : h.mem = some i) (hlk : lookupA bs i = some mb) :
    (h.pval = 0 → derefCheck bs h = .error .BadDeref)
    ∧ (¬ h.pval = 0 → ¬ blockContains mb h.pval → derefCheck bs h = .error .OutOfBounds)
    ∧ (¬ h.pval = 0 → blockContains mb h.pval → derefCheck bs h = .ok ())
    ∧ (∀ n : Int, subscriptCheck bs h n = check bs h)
    ∧ (∀ hd : Handle, ¬ hd.pval = 0 → hd.mem = none → check bs hd = .ok ())
    ∧ (0 < mb.objAddr → h.pval = mb.objAddr → ∀ elemSize : Nat, 0 < elemSize →
        mb.objsize = 4 * elemSize →
        check bs (plusH h 4 elemSize) = .error .OutOfBounds
        ∧ check bs (plusH h 3 elemSize) = .ok ()
        ∧ subscriptCheck bs h 4 = .ok ()) := by
  refine ⟨?_, ?_, ?_, fun _ => rfl, ?_, ?_⟩
  · intro h0
    simp [derefCheck, check, h0]
  · intro h0 hnc
    simp [derefCheck, check, h0, hmem, hlk, hnc]
  · intro h0 hc
    simp [derefCheck, check, h0, hmem, hlk, hc]
  · intro hd h0 hdm
    simp [check, h0, hdm]
  · intro hpos hbase elemSize hS hobj
    have h40 : ¬ (h.pval + 4 * (elemSize : Int) = 0) := by rw [hbase]; omega
    have hnc4 : ¬ blockContains mb (h.pval + 4 * (elemSize : Int)) := by
      simp only [blockContains, hbase, hobj, not_and, not_lt]
      intro _
      push_cast
      omega
    have h30 : ¬ (h.pval + 3 * (elemSize : Int) = 0) := by rw [hbase]; omega
    have hc3 : blockContains mb (h.pval + 3 * (elemSize : Int)) := by
      simp only [blockContains, hbase, hobj]
      push_cast
      omega
    have h00 : ¬ (h.pval = 0) := by rw [hbase]; omega
    have hc0 : blockContains mb h.pval := by
      simp only [blockContains, hbase, hobj]
      push_cast
      omega
    refine ⟨?_, ?_, ?_⟩
    · simp [check, plusH, interiorH, hmem, hlk, h40, hnc4]
    · simp [check, plusH, interiorH, hmem, hlk, h30, hc3]
    · simp [subscriptCheck, check, hmem, hlk, h00, hc0]

/-- Witness for C2 at the concrete scenario state. -/
theorem claim_C2_witness :
    pC2.mem = some 0 ∧ lookupA stC2after.blocks 0 = some mbC2
    ∧ (check stC2after.blocks (plusH pC2 4 4) = .error .OutOfBounds
       ∧ check stC2after.blocks (plusH pC2 3 4) = .ok ()
       ∧ subscriptCheck stC2after.blocks pC2 4 = .ok ()) := by
  refine ⟨by decide, by decide, ?_⟩
  exact (claim_C2_deref_precondition stC2after.blocks pC2 0 mbC2 (by decide)
    (by decide)).2.2.2.2.2 (by decide) (by decide) 4 (by decide) (by decide)

/-- Counterexample to C2 as stated: in the scenario state, the check run
by p[4] succeeds instead of failing with OutOfBounds, because the source's
operator[] validates only p's own target. -/
theorem claim_C2_cex :
    subscriptCheck stC2after.blocks pC2 4 = .ok ()
    ∧ ¬ subscriptCheck stC2after.blocks pC2 4 = .error .OutOfBounds := by
  refine ⟨by decide, by decide⟩

/-- C3 (amended): when the element constructor for index k < n throws
during alloc_array(n), exactly k element destructors run for that block,
the header is destroyed and its raw memory released (the block leaves the
block store and was never on any list), the requesting handle's block
reverts to null while its target is left holding the now-stale payload
base address, the constructor failure propagates to the caller, and no
block leaks; every other handle is untouched. -/
theorem claim_C3_ctor_failure_rollback (s : State) (h : HId) (hd : Handle)
    (n k elemSize : Nat) (hk : k < n)
    (hh : lookupA s.handles h = some hd)
    (hbusy : s.busy = false) (hthr : s.allocated < s.threshold)
    (hnew : s.new_blocks = [])
    (hfresh : lookupA s.blocks s.nextB = none) :
    ∃ s2, alloc_array s h n elemSize true false true (some k) = .raised .ctorFail s2
      ∧ s2.blocks = s.blocks
      ∧ s2.constr_stack = s.constr_stack
      ∧ s2.new_blocks = []
      ∧ s2.active_blocks = s.active_blocks
      ∧ s2.dtorCalls = s.dtorCalls + k
      ∧ lookupA s2.handles h = some { hd with mem := none, pval := s.nextAddr }
      ∧ (∀ r, ¬ r = h → lookupA s2.handles r = lookupA s.handles r) := by
  have hgc := gc_false_noop s hbusy hthr
  have hstop : ctorStops (some k) n = some k := by simp [ctorStops, hk]
  have hrem := removeB_of_lookupA_none s.blocks s.nextB hfresh
  have hrun : alloc_array s h n elemSize true false true (some k) = .raised .ctorFail
      { s with
        handles := updateH (updateH s.handles h
            (fun hd0 => { mem := some s.nextB, pval := s.nextAddr }))
          h (fun hd0 => { hd0 with mem := none }),
        blocks := s.blocks,
        new_blocks := [],
        dtorCalls := s.dtorCalls + k,
        nextB := s.nextB + 1,
        nextAddr := s.nextAddr + ((headerSize : Nat) + (n * elemSize : Nat)) } := by
    by_cases hcs : s.constr_stack = [] <;>
    · simp [alloc_array, alloc_begin, hgc, hstop, alloc_end, hcs, hnew, hk,
        lookupA, lookupA_updateA, hh, hrem, flushNew, removeB, List.filter_cons, updateH]
      intro a b hab heq
      have hsome := mem_lookupA_isSome s.blocks a b hab
      rw [heq, hfresh] at hsome
      simp at hsome
  refine ⟨_, hrun, rfl, rfl, rfl, rfl, rfl, ?_, ?_⟩
  · simp [updateH, lookupA_updateA, hh]
  · intro r hr
    simp [updateH, lookupA_updateA, hr]

/-- Witness for C3: alloc_array(4) whose constructor throws at index 2. -/
theorem claim_C3_witness :
    (2 < 4) ∧ lookupA stC3.handles 0 = some ⟨none, 0⟩ ∧ stC3.busy = false
    ∧ stC3.allocated < stC3.threshold ∧ stC3.new_blocks = []
    ∧ lookupA stC3.blocks stC3.nextB = none
    ∧ ∃ s2, alloc_array stC3 0 4 4 true false true (some 2) = .raised .ctorFail s2
        ∧ s2.blocks = stC3.blocks ∧ s2.constr_stack = stC3.constr_stack
        ∧ s2.new_blocks = [] ∧ s2.active_blocks = stC3.active_blocks
        ∧ s2.dtorCalls = stC3.dtorCalls + 2
        ∧ lookupA s2.handles 0 = some ⟨none, 1000⟩
        ∧ (∀ r, ¬ r = 0 → lookupA s2.handles r = lookupA stC3.handles r) := by
  refine ⟨by decide, by decide, by decide, by decide, by decide, by decide, ?_⟩
  exact claim_C3_ctor_failure_rollback stC3 0 ⟨none, 0⟩ 4 2 4 (by decide) (by decide)
    (by decide) (by decide) (by decide) (by decide)

/-- Counterexample to C3 as stated: after the failed alloc_array(4) the
requesting handle's target still holds the released payload's base
address 1000 — it does not revert to null. -/
theorem claim_C3_cex :
    ((alloc_array stC3 0 4 4 true false true (some 2)).stateOf.bind
      (fun s => (lookupA s.handles 0).map Handle.pval)) = some 1000
    ∧ ¬ ((alloc_array stC3 0 4 4 true false true (some 2)).stateOf.bind
      (fun s => (lookupA s.handles 0).map Handle.pval)) = some 0 := by
  refine ⟨by decide, by decide⟩

/-- C4 is contradicted by the code: when the untyped heap refuses the raw
request, the failure is re-raised and the handle's block does remain null,
but alloc_end(0) still pops the construction stack although alloc_begin
pushed nothing.  At top level (empty stack) the pop dereferences a null
pointer — undefined behaviour; inside a nested construction the enclosing
block is silently removed, so the construction stack is not left as it was
before allocate_begin. -/
theorem claim_C4_alloc_failure_stack_pop :
    alloc_array stC3 0 4 4 true false false none = .undefinedBehavior
    ∧ (alloc_array stC4b 0 4 4 true false false none).exnOf = some .heapFail
    ∧ ((alloc_array stC4b 0 4 4 true false false none).stateOf.map
        State.constr_stack) = some []
    ∧ ¬ ((alloc_array stC4b 0 4 4 true false false none).stateOf.map
        State.constr_stack) = some stC4b.constr_stack
    ∧ stC4b.constr_stack = [9]
    ∧ ((alloc_array stC4b 0 4 4 true false false none).stateOf.bind
        (fun s => (lookupA s.handles 0).map Handle.mem)) = some none := by
  refine ⟨by decide, by decide, by decide, by decide, by decide, by decide⟩

/-- Witness for C8 at a concrete state. -/
theorem claim_C8_witness :
    stC8.busy = false ∧ stC8.allocated < stC8.threshold
    ∧ gc false stC8 = (0, stC8)
    ∧ gc true { stC8 with allocated := 99 } = gc true stC8
    ∧ collect_threshold stC8 0 = (stC8.threshold, stC8)
    ∧ collect_threshold stC8 7 = (stC8.threshold, { stC8 with threshold := 7 }) := by
  refine ⟨by decide, by decide, ?_, ?_, ?_, ?_⟩
  · exact claim_C8_threshold_policy.1 stC8 (by decide) (by decide)
  · exact claim_C8_threshold_policy.2.1 stC8 99 (by decide)
  · exact claim_C8_threshold_policy.2.2.1 stC8
  · exact claim_C8_threshold_policy.2.2.2 stC8 7 (by decide)

theorem marksExtend_refl (bs : BMap) : MarksExtend bs bs :=
  fun _ => Or.inl rfl

theorem marksExtend_trans {bs1 bs2 bs3 : BMap}
    (h12 : MarksExtend bs1 bs2) (h23 : MarksExtend bs2 bs3) : MarksExtend bs1 bs3 := by
  intro i
  rcases h12 i with he | ⟨mb, hb1, hact, hb2⟩
  · rcases h23 i with he' | ⟨mb', hb2, hact', hb3⟩
    · exact Or.inl (he'.trans he)
    · exact Or.inr ⟨mb', he ▸ hb2, hact', hb3⟩
  · rcases h23 i with he' | ⟨mb', hb2', hact', hb3⟩
    · exact Or.inr ⟨mb, hb1, hact, he' ▸ hb2⟩
    · rw [hb2] at hb2'
      injection hb2' with hmm
      exact Or.inr ⟨mb, hb1, hact, by rw [hb3, ← hmm]⟩

theorem marksExtend_setMarked {bs : BMap} {i : BId} {mb : Block}
    (hbk : lookupA bs i = some mb) (hact : mb.active = true) :
    MarksExtend bs (setMarkedB bs i) := by
  intro j
  rw [setMarkedB, lookupA_updateA]
  by_cases hj : j = i
  · subst hj
    exact Or.inr ⟨mb, hbk, hact, by rw [if_pos rfl, hbk]; rfl⟩
  · exact Or.inl (by rw [if_neg hj])

theorem markGo_extend (hs : HMap) (rec : BMap → List HId → BMap)
    (hrec : ∀ bs l, MarksExtend bs (rec bs l)) :
    ∀ (l : List HId) (bs : BMap), MarksExtend bs (markGo hs rec bs l) := by
  intro l
  induction l with
  | nil => intro bs; exact marksExtend_refl bs
  | cons h rest ih =>
    intro bs
    simp only [markGo]
    rcases hlh : lookupA hs h with _ | hd
    · exact ih bs
    · dsimp only
      rcases hmem : hd.mem with _ | i
      · exact ih bs
      · dsimp only
        rcases hbk : lookupA bs i with _ | mb
        · exact ih bs
        · dsimp only
          by_cases hcond : (mb.active && !mb.marked) = true
          · rw [if_pos hcond]
            rw [Bool.and_eq_true] at hcond
            have hact : mb.active = true := hcond.1
            exact marksExtend_trans (marksExtend_trans (marksExtend_setMarked hbk hact)
              (hrec _ _)) (ih _)
          · rw [if_neg hcond]
            exact ih bs

theorem markL_extend (hs : HMap) :
    ∀ (fuel : Nat) (bs : BMap) (l : List HId), MarksExtend bs (markL hs fuel bs l) := by
  intro fuel
  induction fuel with
  | zero =>
    intro bs l
    exact markGo_extend hs _ (fun bs _ => marksExtend_refl bs) l bs
  | succ f ih =>
    intro bs l
    exact markGo_extend hs _ (fun bs l => ih bs l) l bs

theorem marksExtend_some {bs bs' : BMap} (hme : MarksExtend bs bs')
    {i : BId} {mb : Block} (hbk : lookupA bs i = some mb) :
    lookupA bs' i = some mb ∨
      (mb.active = true ∧ lookupA bs' i = some { mb with marked := true }) := by
  rcases hme i with he | ⟨mb0, hb0, hact, hb'⟩
  · exact Or.inl (he.trans hbk)
  · rw [hbk] at hb0
    injection hb0 with hmm
    subst hmm
    exact Or.inr ⟨hact, hb'⟩

theorem marksExtend_some_rev {bs bs' : BMap} (hme : MarksExtend bs bs')
    {i : BId} {mb' : Block} (hbk : lookupA bs' i = some mb') :
    ∃ mb, lookupA bs i = some mb
      ∧ (mb' = mb ∨ (mb' = { mb with marked := true } ∧ mb.active = true)) := by
  rcases hme i with he | ⟨mb0, hb0, hact, hb'⟩
  · exact ⟨mb', he ▸ hbk, Or.inl rfl⟩
  · rw [hbk] at hb'
    injection hb' with hmm
    exact ⟨mb0, hb0, Or.inr ⟨hmm, hact⟩⟩

theorem marksExtend_none {bs bs' : BMap} (hme : MarksExtend bs bs') {i : BId} :
    lookupA bs' i = none ↔ lookupA bs i = none := by
  rcases hme i with he | ⟨mb, hb, _, hb'⟩
  · rw [he]
  · rw [hb, hb']
    simp

theorem marksExtend_isMarked_mono {bs bs' : BMap} (hme : MarksExtend bs bs')
    {i : BId} (hm : isMarked bs i = true) : isMarked bs' i = true := by
  rcases hbk : lookupA bs i with _ | mb
  · rw [isMarked, hbk] at hm
    exact absurd hm (by simp)
  · rw [isMarked, hbk] at hm
    rcases marksExtend_some hme hbk with hb' | ⟨_, hb'⟩
    · rw [isMarked, hb']
      exact hm
    · rw [isMarked, hb']

theorem marksExtend_inactive {bs bs' : BMap} (hme : MarksExtend bs bs')
    {i : BId} {mb : Block} (hbk : lookupA bs i = some mb)
    (hina : mb.active = false) : lookupA bs' i = some mb := by
  rcases marksExtend_some hme hbk with hb' | ⟨hact, _⟩
  · exact hb'
  · rw [hact] at hina
    exact absurd hina (by simp)

theorem marksExtend_active_lookup {bs bs' : BMap} (hme : MarksExtend bs bs')
    {i : BId} {mb : Block} (hbk : lookupA bs i = some mb) (hact : mb.active = true) :
    ∃ mb', lookupA bs' i = some mb' ∧ mb'.active = true ∧ mb'.members = mb.members := by
  rcases marksExtend_some hme hbk with hb' | ⟨_, hb'⟩
  · exact ⟨mb, hb', hact, rfl⟩
  · exact ⟨{ mb with marked := true }, hb', hact, rfl⟩

theorem count_setMarked_le (bs : BMap) (i : BId) :
    unmarkedCount (setMarkedB bs i) ≤ unmarkedCount bs := by
  induction bs with
  | nil => simp [unmarkedCount, setMarkedB, updateA]
  | cons p rest ih =>
    by_cases h1 : p.1 = i <;> rcases hm : p.2.marked with _ | _ <;>
      simp [unmarkedCount, setMarkedB, updateA, List.filter_cons, h1, hm] at * <;>
      omega

theorem count_setMarked_lt (bs : BMap) (i : BId) (mb : Block)
    (hbk : lookupA bs i = some mb) (hm : mb.marked = false) :
    unmarkedCount (setMarkedB bs i) < unmarkedCount bs := by
  induction bs with
  | nil => simp [lookupA] at hbk
  | cons p rest ih =>
    by_cases h1 : p.1 = i
    · rw [lookupA, if_pos h1] at hbk
      injection hbk with hpb
      subst hpb
      have hle := count_setMarked_le rest i
      simp [unmarkedCount, setMarkedB, updateA, List.filter_cons, h1, hm] at *
      omega
    · rw [lookupA, if_neg h1] at hbk
      have hlt := ih hbk
      rcases hm2 : p.2.marked with _ | _ <;>
        simp [unmarkedCount, setMarkedB, updateA, List.filter_cons, h1, hm2] at * <;>
        omega

theorem count_markGo_le (hs : HMap) (rec : BMap → List HId → BMap)
    (hrec : ∀ bs l, unmarkedCount (rec bs l) ≤ unmarkedCount bs) :
    ∀ (l : List HId) (bs : BMap), unmarkedCount (markGo hs rec bs l) ≤ unmarkedCount bs := by
  intro l
  induction l with
  | nil => intro bs; exact le_refl _
  | cons h rest ih =>
    intro bs
    simp only [markGo]
    rcases hlh : lookupA hs h with _ | hd
    · exact ih bs
    · dsimp only
      rcases hmem : hd.mem with _ | i
      · exact ih bs
      · dsimp only
        rcases hbk : lookupA bs i with _ | mb
        · exact ih bs
        · dsimp only
          by_cases hcond : (mb.active && !mb.marked) = true
          · rw [if_pos hcond]
            calc unmarkedCount (markGo hs rec (rec (setMarkedB bs i) mb.members) rest)
                ≤ unmarkedCount (rec (setMarkedB bs i) mb.members) := ih _
              _ ≤ unmarkedCount (setMarkedB bs i) := hrec _ _
              _ ≤ unmarkedCount bs := count_setMarked_le bs i
          · rw [if_neg hcond]
            exact ih bs

theorem count_markL_le (hs : HMap) :
    ∀ (fuel : Nat) (bs : BMap) (l : List HId),
      unmarkedCount (markL hs fuel bs l) ≤ unmarkedCount bs := by
  intro fuel
  induction fuel with
  | zero =>
    intro bs l
    exact count_markGo_le hs _ (fun _ _ => le_refl _) l bs
  | succ f ih =>
    intro bs l
    exact count_markGo_le hs _ (fun bs l => ih bs l) l bs

theorem countZero_all_marked (bs : BMap) (hz : unmarkedCount bs = 0) :
    ∀ (i : BId) (mb : Block), lookupA bs i = some mb → mb.marked = true := by
  induction bs with
  | nil => intro i mb h; simp [lookupA] at h
  | cons p rest ih =>
    intro i mb hbk
    rcases hm : p.2.marked with _ | _ <;>
      simp only [unmarkedCount, List.filter_cons, hm] at hz
    · simp at hz
    · by_cases h1 : p.1 = i
      · rw [lookupA, if_pos h1] at hbk
        injection hbk with hpb
        rw [← hpb]
        exact hm
      · rw [lookupA, if_neg h1] at hbk
        exact ih (by simpa [unmarkedCount] using hz) i mb hbk

/-- Every handle of the walked list that is attached to an active block
leaves the walk with that block marked. -/
theorem markGo_marks_list (hs : HMap) (rec : BMap → List HId → BMap)
    (hrec : ∀ bs l, MarksExtend bs (rec bs l)) :
    ∀ (l : List HId) (bs : BMap) (h : HId) (hd : Handle) (i : BId) (mb : Block),
      h ∈ l → lookupA hs h = some hd → hd.mem = some i →
      lookupA bs i = some mb → mb.active = true →
      isMarked (markGo hs rec bs l) i = true := by
  intro l
  induction l with
  | nil =>
    intro bs h hd i mb hm
    simp at hm
  | cons h' rest ih =>
    intro bs h hd i mb hm hh hmem hbk hact
    have hgoext : ∀ bs0, MarksExtend bs0 (markGo hs rec bs0 rest) :=
      fun bs0 => markGo_extend hs rec hrec rest bs0
    rcases List.mem_cons.1 hm with heq | hmr
    · subst heq
      simp only [markGo, hh, hmem, hbk]
      rcases hmk : mb.marked with _ | _
      · rw [if_pos (show (mb.active && !false) = true by rw [hact]; rfl)]
        have h1 : isMarked (setMarkedB bs i) i = true := by
          simp only [isMarked, setMarkedB, lookupA_updateA, if_pos rfl, hbk]
          rfl
        exact marksExtend_isMarked_mono (hgoext _)
          (marksExtend_isMarked_mono (hrec _ _) h1)
      · rw [if_neg (show ¬ (mb.active && !true) = true by simp)]
        have h1 : isMarked bs i = true := by simp only [isMarked, hbk, hmk]
        exact marksExtend_isMarked_mono (hgoext _) h1
    · -- h occurs in the remaining walk; step once and use the ih
      simp only [markGo]
      rcases hlh : lookupA hs h' with _ | hd'
      · exact ih bs h hd i mb hmr hh hmem hbk hact
      · dsimp only
        rcases hmem' : hd'.mem with _ | i'
        · exact ih bs h hd i mb hmr hh hmem hbk hact
        · dsimp only
          rcases hbk' : lookupA bs i' with _ | mb'
          · exact ih bs h hd i mb hmr hh hmem hbk hact
          · dsimp only
            by_cases hcond : (mb'.active && !mb'.marked) = true
            · rw [if_pos hcond]
              rw [Bool.and_eq_true] at hcond
              have hme : MarksExtend bs (rec (setMarkedB bs i') mb'.members) :=
                marksExtend_trans (marksExtend_setMarked hbk' hcond.1) (hrec _ _)
              rcases marksExtend_active_lookup hme hbk hact with ⟨mb2, hbk2, hact2, _⟩
              exact ih _ h hd i mb2 hmr hh hmem hbk2 hact2
            · rw [if_neg hcond]
              exact ih bs h hd i mb hmr hh hmem hbk hact

/-- Instantiation of the walk lemma for the fuelled mark phase. -/
theorem markL_marks_list (hs : HMap) (fuel : Nat) (bs : BMap) (l : List HId)
    (h : HId) (hd : Handle) (i : BId) (mb : Block)
    (hm : h ∈ l) (hh : lookupA hs h = some hd) (hmem : hd.mem = some i)
    (hbk : lookupA bs i = some mb) (hact : mb.active = true) :
    isMarked (markL hs fuel bs l) i = true := by
  cases fuel with
  | zero =>
    exact markGo_marks_list hs _ (fun bs _ => marksExtend_refl bs) l bs h hd i mb hm hh hmem hbk hact
  | succ f =>
    exact markGo_marks_list hs _ (fun bs l => markL_extend hs f bs l) l bs h hd i mb hm hh hmem hbk hact

theorem reachFrom_mono_list {hs : HMap} {bs : BMap} {l : List HId} {h0 : HId} {i : BId}
    (hr : ReachFrom hs bs l i) : ReachFrom hs bs (h0 :: l) i := by
  induction hr with
  | base h hd i mb hm hh hmem hbk hact =>
    exact ReachFrom.base h hd i mb (List.mem_cons_of_mem _ hm) hh hmem hbk hact
  | step i mb h hd j mbj hr hbk hmm hh hmem hbkj hact ih =>
    exact ReachFrom.step i mb h hd j mbj ih hbk hmm hh hmem hbkj hact

/-- Reachability in a mark-extended store implies reachability in the
original store: marking changes no attachment, member or active data. -/
theorem reachFrom_of_marksExtend {hs : HMap} {bs bs' : BMap} {l : List HId} {i : BId}
    (hme : MarksExtend bs bs') (hr : ReachFrom hs bs' l i) : ReachFrom hs bs l i := by
  induction hr with
  | base h hd i mb hm hh hmem hbk hact =>
    rcases marksExtend_some_rev hme hbk with ⟨mb0, hb0, hca⟩
    rcases hca with hceq | ⟨hceq, hact0⟩
    · exact ReachFrom.base h hd i mb0 hm hh hmem hb0 (by rw [← hceq]; exact hact)
    · exact ReachFrom.base h hd i mb0 hm hh hmem hb0 hact0
  | step i mb h hd j mbj hr hbk hmm hh hmem hbkj hact ih =>
    rcases marksExtend_some_rev hme hbk with ⟨mb0, hb0, hca⟩
    rcases marksExtend_some_rev hme hbkj with ⟨mbj0, hbj0, hcaj⟩
    have hmm0 : h ∈ mb0.members := by
      rcases hca with hceq | ⟨hceq, _⟩ <;> (rw [hceq] at hmm; exact hmm)
    have hactj0 : mbj0.active = true := by
      rcases hcaj with hceq | ⟨_, ha⟩
      · rw [← hceq]; exact hact
      · exact ha
    exact ReachFrom.step i mb0 h hd j mbj0 ih hb0 hmm0 hh hmem hbj0 hactj0

/-- Reachability composes through the members list of a reached block. -/
theorem reachFrom_through {hs : HMap} {bs : BMap} {l : List HId} {i : BId} {mb : Block}
    (hr : ReachFrom hs bs l i) (hbk : lookupA bs i = some mb) :
    ∀ j, ReachFrom hs bs mb.members j → ReachFrom hs bs l j := by
  intro j hrj
  induction hrj with
  | base h hd j' mbj hm hh hmem hbkj hact =>
    exact ReachFrom.step i mb h hd j' mbj hr hbk hm hh hmem hbkj hact
  | step i' mb' h hd j' mbj hr' hbk' hmm hh hmem hbkj hact ih =>
    exact ReachFrom.step i' mb' h hd j' mbj ih hbk' hmm hh hmem hbkj hact

/-- Soundness of the mark phase: a block marked by the walk was already
marked or is reachable from the walked handle list. -/
theorem markL_sound (hs : HMap) :
    ∀ (fuel : Nat) (l : List HId) (bs : BMap) (i : BId),
      isMarked (markL hs fuel bs l) i = true →
      isMarked bs i = true ∨ ReachFrom hs bs l i := by
  intro fuel
  induction fuel with
  | zero =>
    intro l
    induction l with
    | nil => intro bs i hm; exact Or.inl hm
    | cons h' rest ih =>
      intro bs i hm
      rw [markL] at hm ih
      rw [markGo] at hm
      rcases hlh : lookupA hs h' with _ | hd'
      · rw [hlh] at hm
        rcases ih bs i hm with h | h
        · exact Or.inl h
        · exact Or.inr (reachFrom_mono_list h)
      · rw [hlh] at hm
        dsimp only at hm
        rcases hmem' : hd'.mem with _ | i0
        · rw [hmem'] at hm
          rcases ih bs i hm with h | h
          · exact Or.inl h
          · exact Or.inr (reachFrom_mono_list h)
        · rw [hmem'] at hm
          dsimp only at hm
          rcases hbk0 : lookupA bs i0 with _ | mb0
          · rw [hbk0] at hm
            rcases ih bs i hm with h | h
            · exact Or.inl h
            · exact Or.inr (reachFrom_mono_list h)
          · rw [hbk0] at hm
            dsimp only at hm
            by_cases hcond : (mb0.active && !mb0.marked) = true
            · rw [if_pos hcond] at hm
              rw [Bool.and_eq_true] at hcond
              have hbase : ReachFrom hs bs (h' :: rest) i0 :=
                ReachFrom.base h' hd' i0 mb0 (List.mem_cons_self _ _) hlh hmem' hbk0 hcond.1
              rcases ih _ i hm with h | h
              · -- marked in setMarkedB bs i0
                rw [isMarked, setMarkedB, lookupA_updateA] at h
                by_cases hii : i = i0
                · subst hii
                  exact Or.inr hbase
                · rw [if_neg hii] at h
                  exact Or.inl (by rw [isMarked]; exact h)
              · exact Or.inr (reachFrom_mono_list (reachFrom_of_marksExtend
                  (marksExtend_setMarked hbk0 hcond.1) h))
            · rw [if_neg hcond] at hm
              rcases ih bs i hm with h | h
              · exact Or.inl h
              · exact Or.inr (reachFrom_mono_list h)
  | succ f ihf =>
    intro l
    induction l with
    | nil => intro bs i hm; exact Or.inl hm
    | cons h' rest ih =>
      intro bs i hm
      rw [markL] at hm ih
      rw [markGo] at hm
      rcases hlh : lookupA hs h' with _ | hd'
      · rw [hlh] at hm
        rcases ih bs i hm with h | h
        · exact Or.inl h
        · exact Or.inr (reachFrom_mono_list h)
      · rw [hlh] at hm
        dsimp only at hm
        rcases hmem' : hd'.mem with _ | i0
        · rw [hmem'] at hm
          rcases ih bs i hm with h | h
          · exact Or.inl h
          · exact Or.inr (reachFrom_mono_list h)
        · rw [hmem'] at hm
          dsimp only at hm
          rcases hbk0 : lookupA bs i0 with _ | mb0
          · rw [hbk0] at hm
            rcases ih bs i hm with h | h
            · exact Or.inl h
            · exact Or.inr (reachFrom_mono_list h)
          · rw [hbk0] at hm
            dsimp only at hm
            by_cases hcond : (mb0.active && !mb0.marked) = true
            · rw [if_pos hcond] at hm
              rw [Bool.and_eq_true] at hcond
              have hbase : ReachFrom hs bs (h' :: rest) i0 :=
                ReachFrom.base h' hd' i0 mb0 (List.mem_cons_self _ _) hlh hmem' hbk0 hcond.1
              have hme1 : MarksExtend bs (setMarkedB bs i0) :=
                marksExtend_setMarked hbk0 hcond.1
              rcases ih _ i hm with h | h
              · -- marked after the nested members walk
                rcases ihf mb0.members (setMarkedB bs i0) i h with h2 | h2
                · rw [isMarked, setMarkedB, lookupA_updateA] at h2
                  by_cases hii : i = i0
                  · subst hii
                    exact Or.inr hbase
                  · rw [if_neg hii] at h2
                    exact Or.inl (by rw [isMarked]; exact h2)
                · have h3 : ReachFrom hs bs mb0.members i :=
                    reachFrom_of_marksExtend hme1 h2
                  exact Or.inr (reachFrom_through hbase hbk0 i h3)
              · have hme2 : MarksExtend bs (markL hs f (setMarkedB bs i0) mb0.members) :=
                  marksExtend_trans hme1 (markL_extend hs f _ _)
                exact Or.inr (reachFrom_mono_list (reachFrom_of_marksExtend hme2 h))
            · rw [if_neg hcond] at hm
              rcases ih bs i hm with h | h
              · exact Or.inl h
              · exact Or.inr (reachFrom_mono_list h)

theorem markGo_cons_none {hs : HMap} {rec : BMap → List HId → BMap} {bs : BMap}
    {h : HId} {rest : List HId} (hlh : lookupA hs h = none) :
    markGo hs rec bs (h :: rest) = markGo hs rec bs rest := by
  simp only [markGo, hlh]

theorem markGo_cons_nomem {hs : HMap} {rec : BMap → List HId → BMap} {bs : BMap}
    {h : HId} {rest : List HId} {hd : Handle}
    (hlh : lookupA hs h = some hd) (hmem : hd.mem = none) :
    markGo hs rec bs (h :: rest) = markGo hs rec bs rest := by
  simp only [markGo, hlh, hmem]

theorem markGo_cons_noblk {hs : HMap} {rec : BMap → List HId → BMap} {bs : BMap}
    {h : HId} {rest : List HId} {hd : Handle} {i : BId}
    (hlh : lookupA hs h = some hd) (hmem : hd.mem = some i)
    (hbk : lookupA bs i = none) :
    markGo hs rec bs (h :: rest) = markGo hs rec bs rest := by
  simp only [markGo, hlh, hmem, hbk]

theorem markGo_cons_skip {hs : HMap} {rec : BMap → List HId → BMap} {bs : BMap}
    {h : HId} {rest : List HId} {hd : Handle} {i : BId} {mb : Block}
    (hlh : lookupA hs h = some hd) (hmem : hd.mem = some i)
    (hbk : lookupA bs i = some mb) (hcond : (mb.active && !mb.marked) = false) :
    markGo hs rec bs (h :: rest) = markGo hs rec bs rest := by
  simp only [markGo, hlh, hmem, hbk]
  rw [if_neg (by rw [hcond]; simp)]

theorem markGo_cons_mark {hs : HMap} {rec : BMap → List HId → BMap} {bs : BMap}
    {h : HId} {rest : List HId} {hd : Handle} {i : BId} {mb : Block}
    (hlh : lookupA hs h = some hd) (hmem : hd.mem = some i)
    (hbk : lookupA bs i = some mb) (hcond : (mb.active && !mb.marked) = true) :
    markGo hs rec bs (h :: rest) = markGo hs rec (rec (setMarkedB bs i) mb.members) rest := by
  simp only [markGo, hlh, hmem, hbk]
  rw [if_pos hcond]

theorem marksExtend_members {bs bs' : BMap} (hme : MarksExtend bs bs')
    {i : BId} {mb : Block} (hbk : lookupA bs i = some mb) :
    ∃ mb', lookupA bs' i = some mb' ∧ mb'.members = mb.members := by
  rcases marksExtend_some hme hbk with hb' | ⟨_, hb'⟩
  · exact ⟨mb, hb', rfl⟩
  · exact ⟨{ mb with marked := true }, hb', rfl⟩

/-- Closure of the fuelled mark phase: with enough fuel, any block it
marks that was not marked on entry has every active member-successor
marked too. -/
theorem markL_closure (hs : HMap) :
    ∀ (fuel : Nat) (l : List HId) (bs : BMap),
      unmarkedCount bs ≤ fuel →
      ∀ (i : BId), isMarked (markL hs fuel bs l) i = true →
        isMarked bs i = true ∨
        (∀ (mb : Block) (h : HId) (hd : Handle) (j : BId) (mbj : Block),
          lookupA bs i = some mb → h ∈ mb.members →
          lookupA hs h = some hd → hd.mem = some j →
          lookupA bs j = some mbj → mbj.active = true →
          isMarked (markL hs fuel bs l) j = true) := by
  intro fuel
  induction fuel with
  | zero =>
    intro l bs hfuel i hm
    have hz : unmarkedCount bs = 0 := Nat.le_zero.1 hfuel
    rcases hbf : lookupA (markL hs 0 bs l) i with _ | mb'
    · rw [isMarked, hbf] at hm
      exact absurd hm (by simp)
    · rcases marksExtend_some_rev (markL_extend hs 0 bs l) hbf with ⟨mb, hb, _⟩
      refine Or.inl ?_
      simp only [isMarked, hb]
      exact countZero_all_marked bs hz i mb hb
  | succ f ihf =>
    intro l
    induction l with
    | nil =>
      intro bs hfuel i hm
      exact Or.inl hm
    | cons h' rest ih =>
      intro bs hfuel i hm
      rcases hlh : lookupA hs h' with _ | hd'
      · rw [show markL hs (f + 1) bs (h' :: rest) = markL hs (f + 1) bs rest from
          markGo_cons_none hlh] at hm ⊢
        exact ih bs hfuel i hm
      · rcases hmem' : hd'.mem with _ | i0
        · rw [show markL hs (f + 1) bs (h' :: rest) = markL hs (f + 1) bs rest from
            markGo_cons_nomem hlh hmem'] at hm ⊢
          exact ih bs hfuel i hm
        · rcases hbk0 : lookupA bs i0 with _ | mb0
          · rw [show markL hs (f + 1) bs (h' :: rest) = markL hs (f + 1) bs rest from
              markGo_cons_noblk hlh hmem' hbk0] at hm ⊢
            exact ih bs hfuel i hm
          · by_cases hcond : (mb0.active && !mb0.marked) = true
            · -- the walk marks block i0 and descends into its members
              rw [Bool.and_eq_true] at hcond
              have hact0 : mb0.active = true := hcond.1
              have hunm0 : mb0.marked = false := by
                rcases hmk : mb0.marked with _ | _
                · rfl
                · rw [hmk] at hcond
                  exact absurd hcond.2 (by simp)
              have hstep : markL hs (f + 1) bs (h' :: rest)
                  = markL hs (f + 1) (markL hs f (setMarkedB bs i0) mb0.members) rest :=
                markGo_cons_mark hlh hmem' hbk0 (by rw [hact0, hunm0]; rfl)
              rw [hstep] at hm ⊢
              have hme1 : MarksExtend bs (setMarkedB bs i0) :=
                marksExtend_setMarked hbk0 hact0
              have hme2 : MarksExtend bs (markL hs f (setMarkedB bs i0) mb0.members) :=
                marksExtend_trans hme1 (markL_extend hs f _ _)
              have hmeF : MarksExtend (markL hs f (setMarkedB bs i0) mb0.members)
                  (markL hs (f + 1) (markL hs f (setMarkedB bs i0) mb0.members) rest) :=
                markL_extend hs (f + 1) _ _
              have hcount1 : unmarkedCount (setMarkedB bs i0) ≤ f := by
                have := count_setMarked_lt bs i0 mb0 hbk0 hunm0
                omega
              have hcount2 : unmarkedCount (markL hs f (setMarkedB bs i0) mb0.members) ≤ f + 1 := by
                have := count_markL_le hs f (setMarkedB bs i0) mb0.members
                omega
              rcases ih _ hcount2 i hm with h2 | hS2
              · -- i was already marked after the nested members walk
                rcases ihf mb0.members (setMarkedB bs i0) hcount1 i h2 with h1 | hS1
                · -- i was marked right after setMarkedB
                  rw [isMarked, setMarkedB, lookupA_updateA] at h1
                  by_cases hii : i = i0
                  · -- the freshly marked block: its successors are marked by the nested walk
                    subst hii
                    refine Or.inr ?_
                    intro mb h hd j mbj hbk hmm hh hmem hbkj hact
                    rw [hbk0] at hbk
                    injection hbk with hbkeq
                    rw [← hbkeq] at hmm
                    rcases marksExtend_active_lookup hme1 hbkj hact with ⟨mbj1, hbkj1, hactj1, _⟩
                    have hmkd : isMarked (markL hs f (setMarkedB bs i) mb0.members) j = true :=
                      markL_marks_list hs f (setMarkedB bs i) mb0.members h hd j mbj1
                        hmm hh hmem hbkj1 hactj1
                    exact marksExtend_isMarked_mono hmeF hmkd
                  · rw [if_neg hii] at h1
                    exact Or.inl (by rw [isMarked]; exact h1)
                · -- closure obtained from the nested walk
                  refine Or.inr ?_
                  intro mb h hd j mbj hbk hmm hh hmem hbkj hact
                  rcases marksExtend_members hme1 hbk with ⟨mb1, hbk1, hmm1⟩
                  rcases marksExtend_active_lookup hme1 hbkj hact with ⟨mbj1, hbkj1, hactj1, _⟩
                  have hmkd : isMarked (markL hs f (setMarkedB bs i0) mb0.members) j = true :=
                    hS1 mb1 h hd j mbj1 hbk1 (hmm1 ▸ hmm) hh hmem hbkj1 hactj1
                  exact marksExtend_isMarked_mono hmeF hmkd
              · -- closure obtained from the walk over the rest of the list
                refine Or.inr ?_
                intro mb h hd j mbj hbk hmm hh hmem hbkj hact
                rcases marksExtend_members hme2 hbk with ⟨mb2, hbk2, hmm2⟩
                rcases marksExtend_active_lookup hme2 hbkj hact with ⟨mbj2, hbkj2, hactj2, _⟩
                exact hS2 mb2 h hd j mbj2 hbk2 (hmm2 ▸ hmm) hh hmem hbkj2 hactj2
            · have hcondf : (mb0.active && !mb0.marked) = false := by
                rcases hb : (mb0.active && !mb0.marked) with _ | _
                · rfl
                · exact absurd hb hcond
              rw [show markL hs (f + 1) bs (h' :: rest) = markL hs (f + 1) bs rest from
                markGo_cons_skip hlh hmem' hbk0 hcondf] at hm ⊢
              exact ih bs hfuel i hm

/-- Completeness of the mark phase on a quiescent store: every block
reachable from the walked list ends up marked. -/
theorem markL_complete (hs : HMap) (fuel : Nat) (bs : BMap) (l : List HId)
    (hq : ∀ (i : BId) (mb : Block), lookupA bs i = some mb → mb.marked = false)
    (hfuel : unmarkedCount bs ≤ fuel) :
    ∀ i, ReachFrom hs bs l i → isMarked (markL hs fuel bs l) i = true := by
  intro i hr
  induction hr with
  | base h hd i mb hm hh hmem hbk hact =>
    exact markL_marks_list hs fuel bs l h hd i mb hm hh hmem hbk hact
  | step i mb h hd j mbj hr hbk hmm hh hmem hbkj hact ihr =>
    rcases markL_closure hs fuel l bs hfuel i ihr with hmkd | hS
    · simp only [isMarked, hbk] at hmkd
      rw [hq i mb hbk] at hmkd
      exact absurd hmkd (by simp)
    · exact hS mb h hd j mbj hbk hmm hh hmem hbkj hact

/-- On a quiescent store with sufficient fuel, the mark phase marks a
block exactly when it is reachable from the walked handle list. -/
theorem markL_marked_iff (hs : HMap) (fuel : Nat) (bs : BMap) (l : List HId)
    (hq : ∀ (i : BId) (mb : Block), lookupA bs i = some mb → mb.marked = false)
    (hfuel : unmarkedCount bs ≤ fuel) (i : BId) :
    isMarked (markL hs fuel bs l) i = true ↔ ReachFrom hs bs l i := by
  constructor
  · intro hm
    rcases markL_sound hs fuel l bs i hm with hmk | hr
    · rcases hb : lookupA bs i with _ | mb'
      · simp only [isMarked, hb] at hmk
        exact absurd hmk (by simp)
      · simp only [isMarked, hb] at hmk
        rw [hq i mb' hb] at hmk
        exact absurd hmk (by simp)
    · exact hr
  · exact markL_complete hs fuel bs l hq hfuel i

theorem isSome_lookupA_updateA {α : Type} (l : List (Nat × α)) (i : Nat) (f : α → α) (j : Nat) :
    (lookupA (updateA l i f) j).isSome = (lookupA l j).isSome := by
  rw [lookupA_updateA]
  by_cases hj : j = i
  · rw [if_pos hj]
    rcases lookupA l j with _ | a <;> simp
  · rw [if_neg hj]

theorem lookupA_foldUpd (f : Block → Block) (hidem : ∀ mb, f (f mb) = f mb) :
    ∀ (ids : List BId) (bs : BMap) (j : BId),
      lookupA (foldUpd f bs ids) j
        = if j ∈ ids then (lookupA bs j).map f else lookupA bs j := by
  intro ids
  induction ids with
  | nil => intro bs j; simp [foldUpd]
  | cons i rest ih =>
    intro bs j
    rw [foldUpd, ih (updateA bs i f) j, lookupA_updateA]
    by_cases hjr : j ∈ rest <;> by_cases hji : j = i
    · rw [if_pos hjr, if_pos hji, if_pos (by simp [hji]), ]
      rcases lookupA bs j with _ | mb
      · simp
      · simp [hidem]
    · rw [if_pos hjr, if_neg hji, if_pos (by simp [hjr])]
    · rw [if_neg hjr, if_pos hji, if_pos (by simp [hji])]
    · rw [if_neg hjr, if_neg hji, if_neg (by simp [hjr, hji])]

theorem isMarked_clear_ne (bs : BMap) (i j : BId) (hji : ¬ j = i) :
    isMarked (clearMarkedB bs i) j = isMarked bs j := by
  rw [isMarked, isMarked, clearMarkedB, lookupA_updateA, if_neg hji]

/-- Closed form of the sweep loop: marks of the retained (marked) blocks
are cleared in order, the retained ids are reverse-pushed on the first
accumulator and the garbage ids on the second. -/
theorem sweepAux_spec :
    ∀ (l : List BId) (bs : BMap) (act gar : List BId),
      l.Nodup → (∀ i ∈ l, (lookupA bs i).isSome = true) →
      sweepAux bs l act gar =
        (foldUpd (fun mb => { mb with marked := false }) bs
           (l.filter (fun i => isMarked bs i)),
         (l.filter (fun i => isMarked bs i)).reverse ++ act,
         (l.filter (fun i => !isMarked bs i)).reverse ++ gar) := by
  intro l
  induction l with
  | nil =>
    intro bs act gar hnd hpres
    simp [sweepAux, foldUpd]
  | cons i rest ih =>
    intro bs act gar hnd hpres
    have hnd' : rest.Nodup := hnd.of_cons
    have hir : i ∉ rest := by
      rcases List.nodup_cons.1 hnd with ⟨h, _⟩
      exact h
    rcases hbk : lookupA bs i with _ | mb
    · have := hpres i (List.mem_cons_self _ _)
      rw [hbk] at this
      simp at this
    · rcases hm : mb.marked with _ | _
      · -- unmarked head goes to the garbage list
        have hmk : isMarked bs i = false := by simp only [isMarked, hbk, hm]
        rw [sweepAux, hbk]
        dsimp only
        rw [if_neg (by rw [hm]; simp)]
        rw [ih bs act (i :: gar) hnd' (fun j hj => hpres j (List.mem_cons_of_mem _ hj))]
        rw [List.filter_cons, List.filter_cons, hmk]
        simp [List.reverse_cons, List.append_assoc]
      · -- marked head is retained, its mark cleared
        have hmk : isMarked bs i = true := by simp only [isMarked, hbk, hm]
        rw [sweepAux, hbk]
        dsimp only
        rw [if_pos hm]
        have hpres' : ∀ j ∈ rest, (lookupA (clearMarkedB bs i) j).isSome = true := by
          intro j hj
          rw [clearMarkedB, isSome_lookupA_updateA]
          exact hpres j (List.mem_cons_of_mem _ hj)
        rw [ih (clearMarkedB bs i) (i :: act) gar hnd' hpres']
        have hfc1 : rest.filter (fun j => isMarked (clearMarkedB bs i) j)
            = rest.filter (fun j => isMarked bs j) := by
          apply List.filter_congr
          intro j hj
          rw [isMarked_clear_ne bs i j (fun he => hir (he ▸ hj))]
        have hfc2 : rest.filter (fun j => !isMarked (clearMarkedB bs i) j)
            = rest.filter (fun j => !isMarked bs j) := by
          apply List.filter_congr
          intro j hj
          rw [isMarked_clear_ne bs i j (fun he => hir (he ▸ hj))]
        rw [hfc1, hfc2]
        rw [List.filter_cons, List.filter_cons, hmk]
        simp [List.reverse_cons, List.append_assoc, foldUpd, clearMarkedB]

theorem lookupA_removeB_ne (bs : BMap) (i j : BId) (hji : ¬ j = i) :
    lookupA (removeB bs i) j = lookupA bs j := by
  rw [lookupA_removeB, if_neg hji]

/-- Closed form of the reclaim loop: the freed counter accumulates the
objsize of every listed block and the listed blocks leave the store. -/
theorem reclaim_spec :
    ∀ (l : List BId) (bs : BMap) (f d : Nat),
      l.Nodup → (∀ i ∈ l, (lookupA bs i).isSome = true) →
      (reclaim bs l f d).1 = f + sumObjsize bs l
      ∧ (∀ j, lookupA (reclaim bs l f d).2.1 j = if j ∈ l then none else lookupA bs j) := by
  intro l
  induction l with
  | nil =>
    intro bs f d hnd hpres
    constructor
    · simp [reclaim, sumObjsize]
    · intro j
      simp only [reclaim, List.not_mem_nil, if_neg, if_false, reduceCtorEq]
  | cons i rest ih =>
    intro bs f d hnd hpres
    have hnd' : rest.Nodup := hnd.of_cons
    have hir : i ∉ rest := (List.nodup_cons.1 hnd).1
    rcases hbk : lookupA bs i with _ | mb
    · have := hpres i (List.mem_cons_self _ _)
      rw [hbk] at this
      simp at this
    · have hpres' : ∀ j ∈ rest, (lookupA (removeB bs i) j).isSome = true := by
        intro j hj
        rw [lookupA_removeB_ne bs i j (fun he => hir (he ▸ hj))]
        exact hpres j (List.mem_cons_of_mem _ hj)
      have hsum : sumObjsize (removeB bs i) rest = sumObjsize bs rest := by
        rw [sumObjsize, sumObjsize]
        congr 1
        apply List.map_congr_left
        intro j hj
        rw [lookupA_removeB_ne bs i j (fun he => hir (he ▸ hj))]
      rw [reclaim, hbk]
      dsimp only
      rcases ih (removeB bs i) (f + mb.objsize) (d + if mb.hasDestr then mb.nelems else 0)
        hnd' hpres' with ⟨h1, h2⟩
      constructor
      · rw [h1, hsum]
        simp only [sumObjsize, List.map_cons, List.sum_cons, hbk]
        omega
      · intro j
        rw [h2 j]
        by_cases hjr : j ∈ rest
        · rw [if_pos hjr, if_pos (by simp [hjr])]
        · rw [if_neg hjr]
          by_cases hji : j = i
          · rw [if_pos (by simp [hji]), lookupA_removeB, if_pos hji]
          · rw [if_neg (by simp [hjr, hji]), lookupA_removeB_ne bs i j hji]

/-- Closed form of the flush loop at the end of alloc_end: every listed
block has its active bit set and the ids are reverse-pushed on the
global active list. -/
theorem flushNew_spec :
    ∀ (l : List BId) (bs : BMap) (act : List BId),
      flushNew l bs act
        = (foldUpd (fun mb => { mb with active := true }) bs l, l.reverse ++ act) := by
  intro l
  induction l with
  | nil =>
    intro bs act
    simp [flushNew, foldUpd]
  | cons i rest ih =>
    intro bs act
    rw [flushNew, ih (setActiveB bs i) (i :: act), foldUpd]
    simp [setActiveB, List.reverse_cons, List.append_assoc]

theorem clearUpd_of_unmarked (mb : Block) (h : mb.marked = false) :
    { mb with marked := false } = mb := by
  cases mb
  simp_all

theorem activeAt_eq {bs : BMap} {i : BId} {mb : Block} (hbk : lookupA bs i = some mb) :
    activeAt bs i = mb.active := by
  simp [activeAt, hbk]

theorem mem_iff_lookupA {α : Type} (l : List (Nat × α)) (hnd : (l.map Prod.fst).Nodup)
    (p : Nat × α) : p ∈ l ↔ lookupA l p.1 = some p.2 := by
  constructor
  · intro hm
    induction l with
    | nil => simp at hm
    | cons q rest ih =>
      rcases List.mem_cons.1 hm with he | hr
      · rw [he, lookupA, if_pos rfl]
      · have hq1 : ¬ q.1 = p.1 := by
          rcases List.nodup_cons.1 hnd with ⟨hnm, _⟩
          intro he
          exact hnm (he ▸ List.mem_map_of_mem Prod.fst hr)
        rw [lookupA, if_neg hq1]
        exact ih (List.nodup_cons.1 hnd).2 hr
  · exact lookupA_mem l p.1 p.2

theorem sumObjsize_eq_map (bs : BMap) (l : List BId) :
    sumObjsize bs l = (l.map (objsizeAt bs)).sum := rfl

theorem sumObjsize_congr (bs bs' : BMap) (l : List BId)
    (h : ∀ j ∈ l, lookupA bs j = lookupA bs' j) : sumObjsize bs l = sumObjsize bs' l := by
  rw [sumObjsize_eq_map, sumObjsize_eq_map]
  congr 1
  apply List.map_congr_left
  intro j hj
  rw [objsizeAt, objsizeAt, h j hj]

theorem sumObjsize_reverse (bs : BMap) (l : List BId) :
    sumObjsize bs l.reverse = sumObjsize bs l := by
  rw [sumObjsize_eq_map, sumObjsize_eq_map, List.map_reverse, List.sum_reverse]

theorem keysB_updateA (bs : BMap) (i : BId) (f : Block → Block) :
    keysB (updateA bs i f) = keysB bs := by
  rw [keysB, keysB, updateA, List.map_map]
  apply List.map_congr_left
  intro p _
  by_cases h : p.1 = i <;> simp [h]

theorem keysB_foldUpd (f : Block → Block) :
    ∀ (ids : List BId) (bs : BMap), keysB (foldUpd f bs ids) = keysB bs := by
  intro ids
  induction ids with
  | nil => intro bs; rfl
  | cons i rest ih =>
    intro bs
    rw [foldUpd, ih (updateA bs i f), keysB_updateA]

theorem keysB_markGo (hs : HMap) (rec : BMap → List HId → BMap)
    (hrec : ∀ bs l, keysB (rec bs l) = keysB bs) :
    ∀ (l : List HId) (bs : BMap), keysB (markGo hs rec bs l) = keysB bs := by
  intro l
  induction l with
  | nil => intro bs; rfl
  | cons h rest ih =>
    intro bs
    rcases hlh : lookupA hs h with _ | hd
    · rw [markGo_cons_none hlh]
      exact ih bs
    · rcases hmem : hd.mem with _ | i
      · rw [markGo_cons_nomem hlh hmem]
        exact ih bs
      · rcases hbk : lookupA bs i with _ | mb
        · rw [markGo_cons_noblk hlh hmem hbk]
          exact ih bs
        · rcases hcond : (mb.active && !mb.marked) with _ | _
          · rw [markGo_cons_skip hlh hmem hbk hcond]
            exact ih bs
          · rw [markGo_cons_mark hlh hmem hbk hcond]
            rw [ih _, hrec _ _]
            exact keysB_updateA bs i _
  
theorem keysB_markL (hs : HMap) :
    ∀ (fuel : Nat) (bs : BMap) (l : List HId), keysB (markL hs fuel bs l) = keysB bs := by
  intro fuel
  induction fuel with
  | zero =>
    intro bs l
    exact keysB_markGo hs _ (fun _ _ => rfl) l bs
  | succ f ih =>
    intro bs l
    exact keysB_markGo hs _ (fun bs l => ih bs l) l bs

theorem keysB_removeB_sublist (bs : BMap) (i : BId) :
    List.Sublist (keysB (removeB bs i)) (keysB bs) :=
  List.Sublist.map Prod.fst (List.filter_sublist bs)

theorem keysB_reclaim_sublist :
    ∀ (l : List BId) (bs : BMap) (f d : Nat),
      List.Sublist (keysB ((reclaim bs l f d).2.1)) (keysB bs) := by
  intro l
  induction l with
  | nil => intro bs f d; exact List.Sublist.refl _
  | cons i rest ih =>
    intro bs f d
    rw [reclaim]
    rcases hbk : lookupA bs i with _ | mb
    · exact ih bs f d
    · dsimp only
      exact List.Sublist.trans (ih (removeB bs i) _ _) (keysB_removeB_sublist bs i)

/-- Central decomposition of an unconditional collection on a well-formed
quiescent state: the return value is the total objsize of the unmarked
active blocks, the new active list is the retained (marked) blocks in
reverse order, the block store loses exactly the garbage blocks and keeps
every other block bit-for-bit (marks all clear again), and every other
state component is untouched. -/
theorem gc_main (s : State) (hwf : WF s) :
    (gc true s).1 = sumObjsize s.blocks (garbageFilter s)
    ∧ (gc true s).2.active_blocks = (markedFilter s).reverse
    ∧ (∀ j, lookupA (gc true s).2.blocks j =
        if j ∈ garbageFilter s then none else lookupA s.blocks j)
    ∧ (gc true s).2.roots = s.roots
    ∧ (gc true s).2.handles = s.handles
    ∧ (gc true s).2.constr_stack = s.constr_stack
    ∧ (gc true s).2.new_blocks = s.new_blocks
    ∧ (gc true s).2.busy = s.busy
    ∧ (gc true s).2.threshold = s.threshold
    ∧ List.Sublist (keysB (gc true s).2.blocks) (keysB s.blocks) := by
  obtain ⟨hbusy, hknd, hand, hactmap, hactlist, hunm⟩ := hwf
  have hq : ∀ (i : BId) (mb : Block), lookupA s.blocks i = some mb → mb.marked = false :=
    fun i mb hbk => hunm (i, mb) (lookupA_mem _ _ _ hbk)
  have hme : MarksExtend s.blocks (markPhase s) :=
    markL_extend s.handles (unmarkedCount s.blocks) s.blocks s.roots
  have hpresA : ∀ i ∈ s.active_blocks, ∃ mb, lookupA s.blocks i = some mb ∧ mb.active = true := by
    intro i hi
    have ha := hactmap i hi
    rcases hb : lookupA s.blocks i with _ | mb
    · rw [activeAt, hb] at ha
      exact absurd ha (by simp)
    · rw [activeAt_eq hb] at ha
      exact ⟨mb, rfl, ha⟩
  have hpres1 : ∀ i ∈ s.active_blocks, (lookupA (markPhase s) i).isSome = true := by
    intro i hi
    rcases hpresA i hi with ⟨mb, hb, _⟩
    rcases marksExtend_some hme hb with h' | ⟨_, h'⟩ <;> simp [h']
  have hMU : ∀ i ∈ s.active_blocks, i ∈ markedFilter s ∨ i ∈ garbageFilter s := by
    intro i hi
    rcases hmk : isMarked (markPhase s) i with _ | _
    · exact Or.inr (List.mem_filter.2 ⟨hi, by rw [hmk]; rfl⟩)
    · exact Or.inl (List.mem_filter.2 ⟨hi, hmk⟩)
  have hMnU : ∀ j, j ∈ markedFilter s → j ∈ garbageFilter s → False := by
    intro j hjm hju
    have h1 := (List.mem_filter.1 hjm).2
    have h2 := (List.mem_filter.1 hju).2
    rw [h1] at h2
    exact absurd h2 (by simp)
  have hsw : sweepAux (markPhase s) s.active_blocks [] []
      = (foldUpd (fun mb => { mb with marked := false }) (markPhase s) (markedFilter s),
         (markedFilter s).reverse ++ [], (garbageFilter s).reverse ++ []) :=
    sweepAux_spec s.active_blocks (markPhase s) [] [] hand hpres1
  have hgnd : ((garbageFilter s).reverse ++ []).Nodup := by
    rw [List.append_nil, List.nodup_reverse]
    exact hand.filter _
  have hgpres : ∀ i ∈ (garbageFilter s).reverse ++ [],
      (lookupA (foldUpd (fun mb => { mb with marked := false }) (markPhase s)
        (markedFilter s)) i).isSome = true := by
    intro i hi
    rw [List.append_nil, List.mem_reverse] at hi
    rw [lookupA_foldUpd (fun mb => { mb with marked := false }) (fun mb => rfl), if_neg (fun hm => hMnU i hm hi)]
    exact hpres1 i (List.mem_filter.1 hi).1
  have hrc := reclaim_spec ((garbageFilter s).reverse ++ [])
    (foldUpd (fun mb => { mb with marked := false }) (markPhase s) (markedFilter s))
    0 s.dtorCalls hgnd hgpres
  have hcond : ¬ (s.busy = true ∨ (true = false ∧ s.allocated < s.threshold)) := by
    simp [hbusy]
  have hblk2 : ∀ j, lookupA (foldUpd (fun mb => { mb with marked := false })
      (markPhase s) (markedFilter s)) j = lookupA s.blocks j := by
    intro j
    rw [lookupA_foldUpd (fun mb => { mb with marked := false }) (fun mb => rfl)]
    by_cases hjm : j ∈ markedFilter s
    · rw [if_pos hjm]
      have hmk := (List.mem_filter.1 hjm).2
      rcases hbf : lookupA (markPhase s) j with _ | mb1
      · simp only [isMarked, hbf] at hmk
        exact absurd hmk (by simp)
      · simp only [isMarked, hbf] at hmk
        rcases marksExtend_some_rev hme hbf with ⟨mb, hb, hca⟩
        rcases hca with hceq | ⟨hceq, _⟩
        · rw [hceq] at hmk
          rw [hq j mb hb] at hmk
          exact absurd hmk (by simp)
        · rw [hb]
          simp only [Option.map_some']
          rw [hceq]
          exact congrArg some (clearUpd_of_unmarked mb (hq j mb hb))
    · rw [if_neg hjm]
      rcases hb : lookupA s.blocks j with _ | mb
      · exact (marksExtend_none hme).2 hb
      · rcases marksExtend_some hme hb with h' | ⟨hact, h'⟩
        · exact h'
        · have hmk1 : isMarked (markPhase s) j = true := by simp only [isMarked, h']
          have hja : j ∈ s.active_blocks := hactlist (j, mb) (lookupA_mem _ _ _ hb) hact
          rcases hMU j hja with hm | hu
          · exact absurd hm hjm
          · have hx := (List.mem_filter.1 hu).2
            rw [hmk1] at hx
            exact absurd hx (by simp)
  have hgceq : gc true s =
      ((reclaim (foldUpd (fun mb => { mb with marked := false }) (markPhase s)
          (markedFilter s)) ((garbageFilter s).reverse ++ []) 0 s.dtorCalls).1,
       { s with
         blocks := (reclaim (foldUpd (fun mb => { mb with marked := false }) (markPhase s)
           (markedFilter s)) ((garbageFilter s).reverse ++ []) 0 s.dtorCalls).2.1,
         active_blocks := (markedFilter s).reverse ++ [],
         allocated := 0,
         dtorCalls := (reclaim (foldUpd (fun mb => { mb with marked := false }) (markPhase s)
           (markedFilter s)) ((garbageFilter s).reverse ++ []) 0 s.dtorCalls).2.2 }) := by
    rw [gc, if_neg hcond, hsw]
  refine ⟨?_, ?_, ?_, ?_, ?_, ?_, ?_, ?_, ?_, ?_⟩
  · rw [hgceq]
    show (reclaim _ _ 0 s.dtorCalls).1 = _
    rw [hrc.1]
    rw [sumObjsize_congr _ s.blocks _ (fun j _ => hblk2 j)]
    rw [List.append_nil, sumObjsize_reverse]
    omega
  · rw [hgceq]
    show (markedFilter s).reverse ++ [] = (markedFilter s).reverse
    rw [List.append_nil]
  · intro j
    rw [hgceq]
    show lookupA (reclaim _ _ 0 s.dtorCalls).2.1 j = _
    rw [hrc.2 j, hblk2 j]
    by_cases hju : j ∈ garbageFilter s
    · rw [if_pos (by simp [hju]), if_pos hju]
    · rw [if_neg (by simp [hju]), if_neg hju]
  · rw [hgceq]
  · rw [hgceq]
  · rw [hgceq]
  · rw [hgceq]
  · rw [hgceq]
  · rw [hgceq]
  · rw [hgceq]
    show List.Sublist (keysB (reclaim _ _ 0 s.dtorCalls).2.1) (keysB s.blocks)
    refine List.Sublist.trans (keysB_reclaim_sublist _ _ _ _) ?_
    rw [keysB_foldUpd]
    rw [show markPhase s = markL s.handles (unmarkedCount s.blocks) s.blocks s.roots from rfl]
    rw [keysB_markL]

/-- The mark phase marks exactly the blocks reachable from the roots. -/
theorem markPhase_iff (s : State) (hwf : WF s) (i : BId) :
    isMarked (markPhase s) i = true ↔ Reach s i :=
  markL_marked_iff s.handles (unmarkedCount s.blocks) s.blocks s.roots
    (fun i mb hbk => hwf.2.2.2.2.2 (i, mb) (lookupA_mem _ _ _ hbk))
    (le_refl _) i

/-- C1: on a well-formed quiescent state, collect() frees exactly the
active blocks that are not reachable from the root handles through
attachment and member edges, and returns the sum of the objsize fields
of the freed blocks. -/
theorem claim_C1_collect_frees_unreachable (s : State) (hwf : WF s) :
    (∀ i ∈ s.active_blocks, (i ∈ (collect s).2.active_blocks ↔ Reach s i))
    ∧ (∀ (i : BId) (mb : Block), lookupA s.blocks i = some mb →
        (lookupA (collect s).2.blocks i = none ↔ mb.active = true ∧ ¬ Reach s i))
    ∧ (collect s).1 = sumObjsize s.blocks
        (s.active_blocks.filter (fun i => !(decide (i ∈ (collect s).2.active_blocks)))) := by
  obtain hmain := gc_main s hwf
  have hiff := markPhase_iff s hwf
  simp only [collect]
  have hact' : (gc true s).2.active_blocks = (markedFilter s).reverse := hmain.2.1
  have hmemact : ∀ i, i ∈ (gc true s).2.active_blocks
      ↔ (i ∈ s.active_blocks ∧ isMarked (markPhase s) i = true) := by
    intro i
    rw [hact', List.mem_reverse, markedFilter, List.mem_filter]
  refine ⟨?_, ?_, ?_⟩
  · intro i hi
    rw [hmemact i]
    constructor
    · intro hx
      exact (hiff i).1 hx.2
    · intro hr
      exact ⟨hi, (hiff i).2 hr⟩
  · intro i mb hbk
    have hAiff : i ∈ s.active_blocks ↔ mb.active = true := by
      constructor
      · intro hi
        have := hwf.2.2.2.1 i hi
        rw [activeAt_eq hbk] at this
        exact this
      · intro ha
        exact hwf.2.2.2.2.1 (i, mb) (lookupA_mem _ _ _ hbk) ha
    rw [hmain.2.2.1 i]
    by_cases hju : i ∈ garbageFilter s
    · rw [if_pos hju]
      have hx := List.mem_filter.1 hju
      constructor
      · intro _
        refine ⟨hAiff.1 hx.1, ?_⟩
        intro hr
        have := (hiff i).2 hr
        rw [this] at hx
        exact absurd hx.2 (by simp)
      · intro _
        rfl
    · rw [if_neg hju, hbk]
      constructor
      · intro hx
        exact absurd hx (by simp)
      · intro ⟨ha, hnr⟩
        exfalso
        apply hju
        rw [garbageFilter, List.mem_filter]
        refine ⟨hAiff.2 ha, ?_⟩
        rcases hmk : isMarked (markPhase s) i with _ | _
        · rfl
        · exact absurd ((hiff i).1 hmk) hnr
  · rw [hmain.1]
    congr 1
    rw [garbageFilter]
    apply List.filter_congr
    intro i hi
    rcases hmk : isMarked (markPhase s) i with _ | _
    · have hni : ¬ i ∈ (gc true s).2.active_blocks := by
        rw [hmemact i]
        intro hx
        rw [hmk] at hx
        exact absurd hx.2 (by simp)
      simp [hni]
    · have hyi : i ∈ (gc true s).2.active_blocks := (hmemact i).2 ⟨hi, hmk⟩
      simp [hyi]

/-- Blocks looked up after a collection are original blocks: the one-pass
clear restores quiescence, so surviving lookups are unchanged. -/
theorem collect_WF (s : State) (hwf : WF s) : WF (collect s).2 := by
  obtain hmain := gc_main s hwf
  have hiff := markPhase_iff s hwf
  have hknd' : (keysB (gc true s).2.blocks).Nodup :=
    (hmain.2.2.2.2.2.2.2.2.2).nodup hwf.2.1
  refine ⟨?_, ?_, ?_, ?_, ?_, ?_⟩
  · rw [collect, hmain.2.2.2.2.2.2.2.1]
    exact hwf.1
  · exact hknd'
  · rw [collect, hmain.2.1, List.nodup_reverse]
    exact hwf.2.2.1.filter _
  · intro i hi
    rw [collect, hmain.2.1, List.mem_reverse, markedFilter, List.mem_filter] at hi
    rcases hi with ⟨hia, hmk⟩
    have ha := hwf.2.2.2.1 i hia
    rcases hb : lookupA s.blocks i with _ | mb
    · rw [activeAt, hb] at ha
      exact absurd ha (by simp)
    · have hju : ¬ i ∈ garbageFilter s := by
        intro hju
        have hx := (List.mem_filter.1 hju).2
        rw [hmk] at hx
        exact absurd hx (by simp)
      have hlk : lookupA (gc true s).2.blocks i = some mb := by
        rw [hmain.2.2.1 i, if_neg hju]
        exact hb
      rw [collect, activeAt_eq hlk]
      rw [activeAt_eq hb] at ha
      exact ha
  · intro p hp hact
    rw [collect] at hp ⊢
    have hlk := (mem_iff_lookupA _ hknd' p).1 hp
    rw [hmain.2.2.1 p.1] at hlk
    by_cases hju : p.1 ∈ garbageFilter s
    · rw [if_pos hju] at hlk
      exact absurd hlk (by simp)
    · rw [if_neg hju] at hlk
      have hpa : p.1 ∈ s.active_blocks :=
        hwf.2.2.2.2.1 (p.1, p.2) (lookupA_mem _ _ _ hlk) hact
      rw [hmain.2.1, List.mem_reverse, markedFilter, List.mem_filter]
      refine ⟨hpa, ?_⟩
      rcases hmk : isMarked (markPhase s) p.1 with _ | _
      · exfalso
        apply hju
        rw [garbageFilter, List.mem_filter]
        exact ⟨hpa, by rw [hmk]; rfl⟩
      · rfl
  · intro p hp
    rw [collect] at hp
    have hlk := (mem_iff_lookupA _ hknd' p).1 hp
    rw [hmain.2.2.1 p.1] at hlk
    by_cases hju : p.1 ∈ garbageFilter s
    · rw [if_pos hju] at hlk
      exact absurd hlk (by simp)
    · rw [if_neg hju] at hlk
      exact hwf.2.2.2.2.2 (p.1, p.2) (lookupA_mem _ _ _ hlk)

/-- Reachability persists across a collection: the collector never frees
a reachable block, and roots, handles and members are untouched. -/
theorem collect_reach_persist (s : State) (hwf : WF s) :
    ∀ i, Reach s i → Reach (collect s).2 i := by
  obtain hmain := gc_main s hwf
  have hiff := markPhase_iff s hwf
  have hkeep : ∀ j (mbj : Block), lookupA s.blocks j = some mbj →
      ReachFrom s.handles s.blocks s.roots j →
      lookupA (gc true s).2.blocks j = some mbj := by
    intro j mbj hb hrj
    have hju : ¬ j ∈ garbageFilter s := by
      intro hju
      have hx := (List.mem_filter.1 hju).2
      have hmkd : isMarked (markPhase s) j = true := (hiff j).2 hrj
      rw [hmkd] at hx
      exact absurd hx (by simp)
    rw [hmain.2.2.1 j, if_neg hju]
    exact hb
  intro i hr
  show ReachFrom (collect s).2.handles (collect s).2.blocks (collect s).2.roots i
  rw [collect, hmain.2.2.2.2.1, hmain.2.2.2.1]
  induction hr with
  | base h hd i mb hm hh hmem hbk hact =>
    exact ReachFrom.base h hd i mb hm hh hmem
      (hkeep i mb hbk (ReachFrom.base h hd i mb hm hh hmem hbk hact)) hact
  | step i mb h hd j mbj hr hbk hmm hh hmem hbkj hact ih =>
    exact ReachFrom.step i mb h hd j mbj ih (hkeep i mb hbk hr) hmm hh hmem
      (hkeep j mbj hbkj (ReachFrom.step i mb h hd j mbj hr hbk hmm hh hmem hbkj hact)) hact

/-- C6: collect() is idempotent on a quiescent graph — an immediate second
collection frees 0 bytes — and when a collection finishes every remaining
block has its marked bit cleared. -/
theorem claim_C6_collect_idempotent (s : State) (hwf : WF s) :
    (collect ((collect s).2)).1 = 0
    ∧ (∀ p ∈ (collect s).2.blocks, (Prod.snd p).marked = false) := by
  have hwf' := collect_WF s hwf
  constructor
  · obtain hmain := gc_main s hwf
    obtain hmain' := gc_main (collect s).2 hwf'
    have hiff := markPhase_iff s hwf
    have hiff' := markPhase_iff (collect s).2 hwf'
    rw [collect, hmain'.1]
    have hgar : garbageFilter (collect s).2 = [] := by
      rw [garbageFilter]
      rw [List.filter_eq_nil_iff]
      intro j hj
      -- every retained block is reachable again after the collection
      have hrj : Reach (collect s).2 j := by
        apply collect_reach_persist s hwf
        apply (hiff j).1
        rw [collect, hmain.2.1, List.mem_reverse, markedFilter, List.mem_filter] at hj
        exact hj.2
      have hmk : isMarked (markPhase (collect s).2) j = true := (hiff' j).2 hrj
      rw [hmk]
      simp
    rw [hgar]
    rfl
  · exact hwf'.2.2.2.2.2

/-- C5: the collector never marks and never frees a block whose active
flag is false — such blocks (those on a construction stack or new-blocks
list) survive every collection bit-for-bit, and the collector leaves the
thread-local lists alone; and a commit in alloc_end publishes nothing
while the construction stack is non-empty after the pop, whereas the
outermost alloc_end flushes the whole new-blocks list to the global
active list in one step, setting every flushed block's active flag. -/
theorem claim_C5_inactive_and_flush :
    (∀ (s : State) (u : Bool) (i : BId) (mb : Block), WF s →
      lookupA s.blocks i = some mb → mb.active = false →
        lookupA ((gc u s).2).blocks i = some mb
        ∧ isMarked (markPhase s) i = false
        ∧ (gc u s).2.constr_stack = s.constr_stack
        ∧ (gc u s).2.new_blocks = s.new_blocks)
    ∧ (∀ (s : State) (h : HId) (hd : Handle) (top : BId) (rest : List BId)
        (i : BId) (mb : Block) (k : Nat),
        s.constr_stack = top :: rest →
        lookupA s.handles h = some hd → hd.mem = some i →
        lookupA s.blocks i = some mb → mb.nelems ≤ k →
        ((¬ rest = [] →
            alloc_end s h k = some
              { s with
                constr_stack := rest,
                allocated := s.allocated + mb.objsize,
                new_blocks := i :: s.new_blocks })
         ∧ (rest = [] →
            alloc_end s h k = some
              { s with
                constr_stack := rest,
                allocated := s.allocated + mb.objsize,
                new_blocks := [],
                blocks := foldUpd (fun mb0 => { mb0 with active := true })
                  s.blocks (i :: s.new_blocks),
                active_blocks := (i :: s.new_blocks).reverse ++ s.active_blocks }
            ∧ (∀ j ∈ i :: s.new_blocks, (lookupA s.blocks j).isSome = true →
                activeAt (foldUpd (fun mb0 => { mb0 with active := true })
                  s.blocks (i :: s.new_blocks)) j = true
                ∧ j ∈ (i :: s.new_blocks).reverse ++ s.active_blocks)))) := by
  constructor
  · intro s u i mb hwf hbk hina
    have hq : ∀ (j : BId) (mbj : Block), lookupA s.blocks j = some mbj → mbj.marked = false :=
      fun j mbj hb => hwf.2.2.2.2.2 (j, mbj) (lookupA_mem _ _ _ hb)
    have hmkF : isMarked (markPhase s) i = false := by
      have hme : MarksExtend s.blocks (markPhase s) :=
        markL_extend s.handles (unmarkedCount s.blocks) s.blocks s.roots
      have h1 := marksExtend_inactive hme hbk hina
      simp only [isMarked, h1]
      exact hq i mb hbk
    have htrue : lookupA ((gc true s).2).blocks i = some mb
        ∧ (gc true s).2.constr_stack = s.constr_stack
        ∧ (gc true s).2.new_blocks = s.new_blocks := by
      obtain hmain := gc_main s hwf
      have hju : ¬ i ∈ garbageFilter s := by
        intro hju
        have hia := (List.mem_filter.1 hju).1
        have ha := hwf.2.2.2.1 i hia
        rw [activeAt_eq hbk, hina] at ha
        exact absurd ha (by simp)
      refine ⟨?_, hmain.2.2.2.2.2.1, hmain.2.2.2.2.2.2.1⟩
      rw [hmain.2.2.1 i, if_neg hju]
      exact hbk
    rcases u with _ | _
    · -- conditional collection: below threshold it is the identity,
      -- otherwise it coincides with the unconditional one
      by_cases hthr : s.allocated < s.threshold
      · rw [gc_false_noop s hwf.1 hthr]
        exact ⟨hbk, hmkF, rfl, rfl⟩
      · have heq : gc false s = gc true s := by
          rw [gc, gc, if_neg (by simp [hwf.1, hthr]), if_neg (by simp [hwf.1])]
        rw [heq]
        exact ⟨htrue.1, hmkF, htrue.2.1, htrue.2.2⟩
    · exact ⟨htrue.1, hmkF, htrue.2.1, htrue.2.2⟩
  · intro s h hd top rest i mb k hstack hh hmem hblk hle
    have hnlt : ¬ k < mb.nelems := by omega
    constructor
    · intro hrne
      simp only [alloc_end, hstack, hh, hmem, hblk]
      rw [if_neg hnlt, if_neg hrne]
    · intro hre
      subst hre
      constructor
      · simp only [alloc_end, hstack, hh, hmem, hblk]
        rw [if_neg hnlt, if_pos rfl]
        rw [flushNew_spec]
      · intro j hj hjp
        constructor
        · rw [activeAt]
          rw [lookupA_foldUpd (fun mb0 => { mb0 with active := true }) (fun mb0 => rfl)]
          rw [if_pos hj]
          rcases hb : lookupA s.blocks j with _ | mbj
          · rw [hb] at hjp
            exact absurd hjp (by simp)
          · rfl
        · rw [List.mem_append, List.mem_reverse]
          exact Or.inl hj

/-- Witness for C1: on the cyclic state, collect() frees exactly the
unreferenced cycle, 10 + 20 + 40 = 70 bytes. -/
theorem claim_C1_witness :
    WF stC1
    ∧ (∀ i ∈ stC1.active_blocks, (i ∈ (collect stC1).2.active_blocks ↔ Reach stC1 i))
    ∧ (∀ (i : BId) (mb : Block), lookupA stC1.blocks i = some mb →
        (lookupA (collect stC1).2.blocks i = none ↔ mb.active = true ∧ ¬ Reach stC1 i))
    ∧ (collect stC1).1 = sumObjsize stC1.blocks
        (stC1.active_blocks.filter (fun i => !(decide (i ∈ (collect stC1).2.active_blocks))))
    ∧ (collect stC1).1 = 70
    ∧ (collect stC1).2.active_blocks = [4] := by
  have h := claim_C1_collect_frees_unreachable stC1 (by decide)
  exact ⟨by decide, h.1, h.2.1, h.2.2, by decide, by decide⟩

/-- Witness for C6: the second collection after the 70-byte one frees 0. -/
theorem claim_C6_witness :
    WF stC6
    ∧ (collect ((collect stC6).2)).1 = 0
    ∧ (∀ p ∈ (collect stC6).2.blocks, (Prod.snd p).marked = false)
    ∧ (collect stC6).1 = 70 := by
  have h := claim_C6_collect_idempotent stC6 (by decide)
  exact ⟨by decide, h.1, h.2, by decide⟩

/-- Witness for C5: the under-construction block survives an unconditional
collection untouched even though a root handle points at it, and the
outermost alloc_end publishes the committed block with its active flag set. -/
theorem claim_C5_witness :
    WF stC5a ∧ lookupA stC5a.blocks 7 = some mbC5a ∧ mbC5a.active = false
    ∧ (lookupA ((gc true stC5a).2).blocks 7 = some mbC5a
       ∧ isMarked (markPhase stC5a) 7 = false
       ∧ (gc true stC5a).2.constr_stack = stC5a.constr_stack
       ∧ (gc true stC5a).2.new_blocks = stC5a.new_blocks)
    ∧ (alloc_end stC5b 0 1 = some
        { stC5b with
          constr_stack := [],
          allocated := stC5b.allocated + mbC5b.objsize,
          new_blocks := [],
          blocks := foldUpd (fun mb0 => { mb0 with active := true }) stC5b.blocks [5],
          active_blocks := [5].reverse ++ stC5b.active_blocks }
       ∧ (∀ j ∈ [5], (lookupA stC5b.blocks j).isSome = true →
           activeAt (foldUpd (fun mb0 => { mb0 with active := true }) stC5b.blocks [5]) j = true
           ∧ j ∈ [5].reverse ++ stC5b.active_blocks)) := by
  refine ⟨by decide, by decide, by decide, ?_, ?_⟩
  · exact claim_C5_inactive_and_flush.1 stC5a true 7 mbC5a (by decide) (by decide) (by decide)
  · exact (claim_C5_inactive_and_flush.2 stC5b 0 ⟨some 5, 40⟩ 5 [] 5 mbC5b 1 (by decide)
      (by decide) (by decide) (by decide) (by decide)).2 rfl

end GcPtr
